import Mathlib

/-!
Verification of the spectral-model assembly interface (`src/interface.py`)
against its natural-language specification.  Strings are modelled as
`List Char`; the mutable engine state (per-data-group models, parameters)
is modelled by explicit records and state passing; fallible code paths
(Python `KeyError` / `AttributeError` / `NameError`) are modelled with
`Option`.
-/

namespace XI

/-! ## Basic string machinery (Python `in`, `str.replace`) -/

/-- Python `pat in s` (substring containment) for `pat` non-empty. -/
def containsSub (pat : List Char) : List Char → Bool
  | [] => pat.isPrefixOf []
  | c :: rest => pat.isPrefixOf (c :: rest) || containsSub pat rest

/-- Helper for `replaceAll`: while `skip > 0`, drop characters already
consumed by a replaced occurrence; at `skip = 0` scan for the next
occurrence of `pat`.  Structural recursion on the string keeps the
definition kernel-reducible. -/
def replaceAllAux (pat repl : List Char) : Nat → List Char → List Char
  | _, [] => []
  | Nat.succ k, _ :: rest => replaceAllAux pat repl k rest
  | 0, c :: rest =>
    if pat.isPrefixOf (c :: rest) && !pat.isEmpty then
      repl ++ replaceAllAux pat repl (pat.length - 1) rest
    else
      c :: replaceAllAux pat repl 0 rest

/-- Python `s.replace(pat, repl)`: left-to-right, non-overlapping
replacement of every occurrence of the non-empty pattern `pat` in `s`. -/
def replaceAll (pat repl s : List Char) : List Char :=
  replaceAllAux pat repl 0 s

/-! ## Expression algebra (`_configure_new_expression`)

The module-level format strings of `interface.py`:
`CONSTANT_EXPRESSION_NO_PAREN = '{outer}constant*{inner}'` and
`CONSTANT_EXPRESSION_PAREN = '{outer}constant*({inner})'`.
`parse.parse(fmt, s)` matches the whole string, where a bare `{name}`
field behaves like the lazy regex group `(.+?)` (at least one character,
shortest match first); so the parse of `s` against
`'{outer}constant*({inner})'` is: the shortest non-empty prefix `outer`
such that the remainder starts with the literal `constant*(` and what
follows that literal consists of a non-empty `inner` followed by a final
`)` ending the string.  Against `'{outer}constant*{inner}'`, `inner` is
simply the non-empty remainder after the literal `constant*`. -/

def constStar : List Char := "const*".toList

def constantStar : List Char := "constant*".toList

def constantLit : List Char := "constant".toList

def constantParenLit : List Char := "constant*(".toList

def plusSep : List Char := " + ".toList

/-- Given the text after a candidate `outer`, try to read the literal
`constant*(` followed by a non-empty `inner` and a closing `)` that ends
the string; return `inner` on success. -/
def parenTail (rest : List Char) : Option (List Char) :=
  if constantParenLit.isPrefixOf rest then
    let t := rest.drop constantParenLit.length
    if 2 ≤ t.length && t.getLast? == some ')' then some t.dropLast else none
  else none

/-- Lazy scan for `parse.parse(CONSTANT_EXPRESSION_PAREN, s)`:
`outerAcc` accumulates the candidate `outer` (grown one character at a
time, so the shortest match wins, as the lazy `(.+?)` group does). -/
def parseParenAux : List Char → List Char → Option (List Char × List Char)
  | _, [] => none
  | outerAcc, c :: rest =>
    match parenTail rest with
    | some inner => some (outerAcc ++ [c], inner)
    | none => parseParenAux (outerAcc ++ [c]) rest

/-- `parse.parse(CONSTANT_EXPRESSION_PAREN, s)`, returning `(outer, inner)`. -/
def parseParen (s : List Char) : Option (List Char × List Char) :=
  parseParenAux [] s

/-- Given the text after a candidate `outer`, try to read the literal
`constant*` followed by a non-empty `inner` reaching the end of string. -/
def noParenTail (rest : List Char) : Option (List Char) :=
  if constantStar.isPrefixOf rest then
    let t := rest.drop constantStar.length
    if t.isEmpty then none else some t
  else none

/-- Lazy scan for `parse.parse(CONSTANT_EXPRESSION_NO_PAREN, s)`. -/
def parseNoParenAux : List Char → List Char → Option (List Char × List Char)
  | _, [] => none
  | outerAcc, c :: rest =>
    match noParenTail rest with
    | some inner => some (outerAcc ++ [c], inner)
    | none => parseNoParenAux (outerAcc ++ [c]) rest

/-- `parse.parse(CONSTANT_EXPRESSION_NO_PAREN, s)`, returning `(outer, inner)`. -/
def parseNoParen (s : List Char) : Option (List Char × List Char) :=
  parseNoParenAux [] s

/-- The two alternative patterns in the order the code tries them
(parenthesized first, then the bare single-term fallback). -/
def parseConstant (s : List Char) : Option (List Char × List Char) :=
  match parseParen s with
  | some r => some r
  | none => parseNoParen s

/-- The normalization step (lines 748–749): `if 'const*' in new:
new = new.replace('const*', 'constant*')`. -/
def normalizeShorthand (neww : List Char) : List Char :=
  if containsSub constStar neww then
    replaceAll constStar constantStar neww else neww

/-- `XSPECInterface._configure_new_expression(self, new, old)`.
State read from `self`: `pileup` is `self.pileup_expression`.
Returns `none` where the Python raises (`p.named` on `p = None` is an
`AttributeError` when neither pattern matches an `old` containing
`'constant'`).  The re-wrap is
`CONSTANT_EXPRESSION_PAREN.format(outer=outer, inner=inner + ' + ' + new)`
and the parse input is `old` with one space prefixed
(`old = f' {old}'`, needed because a bare format field never matches an
empty `outer`). -/
def configureNewExpression (pileup old neww : List Char) :
    Option (List Char) :=
  let new1 := normalizeShorthand neww
  let merged : Option (List Char) :=
    if old.isEmpty then some new1
    else if containsSub constantLit old then
      match parseConstant (' ' :: old) with
      | none => none
      | some (outer, inner) =>
        some (outer ++ constantParenLit ++ (inner ++ plusSep ++ new1) ++ [')'])
    else some (old ++ plusSep ++ new1)
  merged.map (fun r => if pileup.isEmpty then r else pileup ++ plusSep ++ r)

example :
    configureNewExpression [] "constant*(vapec)".toList "bknpower".toList =
      some " constant*(vapec + bknpower)".toList := by decide

example :
    configureNewExpression [] "constant*vapec".toList "bknpower".toList =
      some " constant*(vapec + bknpower)".toList := by decide

example :
    configureNewExpression [] "vapec".toList "bknpower".toList =
      some "vapec + bknpower".toList := by decide

example :
    configureNewExpression [] [] "const*vapec".toList =
      some "constant*vapec".toList := by decide

example :
    configureNewExpression "expmodgauss".toList [] "vapec".toList =
      some "expmodgauss + vapec".toList := by decide

example :
    configureNewExpression [] "vapec*constant".toList "bknpower".toList =
      none := by decide

/-! ## Bin edges (`compute_energy_edges`)

`np.append(energy - energy_err, [energy[-1] + energy_err[-1]])`; the
arithmetic is elementwise on equal-length arrays, modelled over `ℚ`
(the claimed values are exact).  numpy's `energy[-1]` is the last
element; `getLastD 0` is only a total stand-in, every claim below is
stated for non-empty input as the code requires. -/

def compute_energy_edges (energy energy_err : List ℚ) : List ℚ :=
  (List.zipWith (fun a b => a - b) energy energy_err) ++
    [energy.getLastD 0 + energy_err.getLastD 0]

example :
    compute_energy_edges [1, 2, 3] [1/2, 1/2, 1/2] =
      [1/2, 3/2, 5/2, 7/2] := by
  simp only [compute_energy_edges, List.zipWith, List.getLastD]
  norm_num

/-! ## Naming disambiguation (`ArchivedModel._archive_components`)

The loop over `model.componentNames`: base names are the text before the
first `_` (`c.split('_')[0]`), total occurrence counts come from
`np.unique(..., return_counts=True)`, and a per-name `uses` counter is
incremented (and appended to the name) only for base names whose total
count exceeds one. -/

def baseName (full : List Char) : List Char :=
  full.takeWhile (fun c => !(c == '_'))

/-- Pointwise update of a `uses` table. -/
def updateFn (f : List Char → Nat) (k : List Char) (v : Nat) :
    List Char → Nat :=
  fun x => if x = k then v else f x

/-- The disambiguation loop: `total` is the occurrence count of each base
name over the whole model, `uses` the running per-name counter. -/
def assignLoop (total : List Char → Nat) :
    (List Char → Nat) → List (List Char) → List (List Char)
  | _, [] => []
  | uses, n :: rest =>
    if 1 < total n then
      (n ++ Nat.toDigits 10 (uses n + 1)) ::
        assignLoop total (updateFn uses n (uses n + 1)) rest
    else
      n :: assignLoop total uses rest

/-- Instance names assigned by `_archive_components`, as a function of the
ordered component-name list of the model. -/
def instanceNames (componentNames : List (List Char)) : List (List Char) :=
  let bases := componentNames.map baseName
  assignLoop (fun n => bases.count n) (fun _ => 0) bases

example :
    instanceNames ["vapec".toList, "vapec".toList, "bknpower".toList] =
      ["vapec1".toList, "vapec2".toList, "bknpower".toList] := by decide

example :
    instanceNames ["vapec".toList, "vapec_2".toList, "bknpower".toList] =
      ["vapec1".toList, "vapec2".toList, "bknpower".toList] := by decide

/-! ## Parameter / component data model

One fit parameter as the engine exposes it (and as `ArchivedParameter`
snapshots it): a `values` six-tuple `(value, step, hard_min, soft_min,
soft_max, hard_max)` modelled as a list of exact scalars, an `error`
interval, a textual `link` (empty = unlinked) and a `frozen` flag. -/

structure ParamRec where
  name : String
  values : List ℚ
  error : List ℚ
  link : String
  frozen : Bool
deriving DecidableEq

/-- One model component: its engine name and its ordered parameters
(`component.parameterNames` order). -/
structure Comp where
  name : String
  params : List ParamRec
deriving DecidableEq

/-- A model, as the engine exposes it for one data group: the ordered
component list (`model.componentNames` order). -/
abbrev ModelComps := List Comp

/-- `model.__dict__[name]` on components / dict lookup by name. -/
def lookupComp (m : List Comp) (n : String) : Option Comp :=
  m.find? (fun c => c.name == n)

/-- `component.__dict__[name]` on parameters. -/
def lookupParam (c : Comp) (n : String) : Option ParamRec :=
  c.params.find? (fun p => p.name == n)

/-- Parameter of a named component of a model. -/
def lookupCompParam (m : List Comp) (cn pn : String) : Option ParamRec :=
  (lookupComp m cn).bind (fun c => lookupParam c pn)

/-- PyXSPEC `parameter.values = <list>`: a list assigned to `.values`
overwrites the leading fields, keeping any trailing ones. -/
def overwriteValues (old new : List ℚ) : List ℚ :=
  new ++ old.drop new.length

example : overwriteValues [5, 6, 7] [1] = [1, 6, 7] := by decide

/-! ## Archive (`Archive.add_model`)

`instruments` is a mapping instrument name → insertion-ordered mapping
model name → archived model, modelled as association lists.  The
archived model is modelled by the fields the claims touch: its `name`
and its disambiguated component snapshot. -/

structure AModel where
  name : String
  components : List Comp
deriving DecidableEq

abbrev Archive := List (String × List (String × AModel))

/-- `Archive.add_model(instrument, model)`: create the instrument entry
if missing, insert the model under `model.name` unless that name is
already present — a duplicate is a warned no-op, never an error (the
function is total). -/
def addModel (a : Archive) (instrument : String) (m : AModel) : Archive :=
  let a1 : Archive :=
    if a.any (fun e => e.1 == instrument) then a else a ++ [(instrument, [])]
  a1.map (fun e =>
    if e.1 == instrument then
      (e.1, if e.2.any (fun q => q.1 == m.name) then e.2
            else e.2 ++ [(m.name, m)])
    else e)

/-- Model lookup in the archive. -/
def lookupArchived (a : Archive) (instrument n : String) : Option AModel :=
  (a.find? (fun e => e.1 == instrument)).bind
    (fun e => (e.2.find? (fun q => q.1 == n)).map (fun q => q.2))

example :
    addModel (addModel [] "nustar" ⟨"m1", []⟩) "nustar" ⟨"m1", [⟨"vapec", []⟩]⟩ =
      addModel [] "nustar" ⟨"m1", []⟩ := by decide

/-! ## Parameter migration (`add_component`, archived → new model)

The block `for old_component in archived_model.components.values(): ...`:
the archived `constant` component is skipped for data group 1, otherwise
the same-named component of the live model is fetched
(`current_model.__dict__[old_component.name]`, a `KeyError` — modelled
`none` — when absent), and every parameter of the new component that has
a same-named archived counterpart receives the archived `values` and
`frozen or freeze_previous`, unless the archived parameter was linked. -/

def migrateParam (oldc : Comp) (freezePrev : Bool) (p : ParamRec) : ParamRec :=
  match lookupParam oldc p.name with
  | none => p
  | some oldp =>
    if oldp.link == "" then
      { p with values := overwriteValues p.values oldp.values,
               frozen := oldp.frozen || freezePrev }
    else p

def migrateComponent (oldc : Comp) (freezePrev : Bool) (c : Comp) : Comp :=
  { c with params := c.params.map (migrateParam oldc freezePrev) }

def migrateModel (freezePrev : Bool) (groupNum : Nat) :
    List Comp → List Comp → Option (List Comp)
  | [], cur => some cur
  | oldc :: rest, cur =>
    if oldc.name == "constant" && groupNum == 1 then
      migrateModel freezePrev groupNum rest cur
    else if cur.any (fun c => c.name == oldc.name) then
      migrateModel freezePrev groupNum rest
        (cur.map (fun c =>
          if c.name == oldc.name then migrateComponent oldc freezePrev c else c))
    else none

/-! ## Multi-group constant-factor convention (`add_component`, final block)

`first_group = self.signal_groups[0]` (`IndexError` — modelled `none` —
on an empty list); when the first group's model has a `constant`
component, its `factor` is unlinked and frozen, and the `factor` of every
other signal group is set to 1.0, unlinked and unfrozen. -/

def updateGroups (models : Nat → List Comp) (g : Nat) (m : List Comp) :
    Nat → List Comp :=
  fun x => if x = g then m else models x

/-- Field update of the `factor` parameter of the `constant` component. -/
def setFactorParam (f : ParamRec → ParamRec) (m : List Comp) : List Comp :=
  m.map (fun c =>
    if c.name == "constant" then
      { c with params := c.params.map (fun p =>
          if p.name == "factor" then f p else p) }
    else c)

def freezeFirstFactor (m : List Comp) : List Comp :=
  setFactorParam (fun p => { p with link := "", frozen := true }) m

def freeGroupFactor (m : List Comp) : List Comp :=
  setFactorParam (fun p =>
    { p with values := overwriteValues p.values [1], link := "", frozen := false }) m

def applyConstantConvention : List Nat → (Nat → List Comp) →
    Option (Nat → List Comp)
  | [], _ => none
  | firstGroup :: restGroups, models =>
    if (models firstGroup).any (fun c => c.name == "constant") then
      some ((firstGroup :: restGroups).foldl
        (fun acc g =>
          if g ≠ firstGroup then updateGroups acc g (freeGroupFactor (acc g)) else acc)
        (updateGroups models firstGroup (freezeFirstFactor (models firstGroup))))
    else some models

/-! ## Parameter limits (`_set_parameter_limits`)

`conf` models `XSPECConfiguration(config_file).conf_dict` as the ordered
mapping parameter name → limit tuple (`tuple(conf_dict[name].values())`).
Per instrument (signal data group), per component: each configured name
present in the component gets its limit tuple assigned to `.values`,
except that groups beyond 1 are skipped when `tie_data_groups`; then a
second loop clears the link of every parameter when not tying. -/

/-- One iteration of the `for parameter_name in conf_dict` loop on one
component: if the configured name exists among the component's
parameters, either skip (`group_num > 1 and tie_data_groups`) or assign
the limit tuple to the parameter's `.values`. -/
def applyLimitEntry (groupNum : Nat) (tie : Bool) (cc : Comp)
    (entry : String × List ℚ) : Comp :=
  if cc.params.any (fun p => p.name == entry.1) then
    if 1 < groupNum && tie then cc
    else
      { cc with params := cc.params.map (fun p =>
          if p.name == entry.1 then
            { p with values := overwriteValues p.values entry.2 }
          else p) }
  else cc

def setLimitsComponent (conf : List (String × List ℚ)) (groupNum : Nat)
    (tie : Bool) (c : Comp) : Comp :=
  let c1 := conf.foldl (applyLimitEntry groupNum tie) c
  if tie then c1
  else { c1 with params := c1.params.map (fun p => { p with link := "" }) }

/-- Per-instrument iteration: transform the signal data group's model. -/
def limitsGroupStep (conf : List (String × List ℚ)) (tie : Bool)
    (acc : Nat → List Comp) (g : Nat) : Nat → List Comp :=
  updateGroups acc g ((acc g).map (setLimitsComponent conf g tie))

def setParameterLimits (conf : List (String × List ℚ))
    (instrumentGroups : List Nat) (tie : Bool)
    (models : Nat → List Comp) : Nat → List Comp :=
  instrumentGroups.foldl (limitsGroupStep conf tie) models

/-! ## Pileup links (`_set_pileup_links`)

Per-instrument state: the instrument name, its signal model and its
optional pileup model.  Phase 1 links, for every instrument having a
pileup model, each pileup component/parameter into the same-named signal
parameter (`signal.__dict__[comp].__dict__[param].link = parameter`);
`ref_model` ends up as the pileup model of the *last* instrument with
one (`NameError` — modelled `none` — if none exists while some
instrument lacks a pileup model).  Phase 2 zeroes (`'0 0 0 0 0 0'`) and
freezes, for every instrument without a pileup model, every parameter of
the signal components named in `ref_model.componentNames`. -/

structure Inst where
  name : String
  signalModel : List Comp
  pileupModel : Option (List Comp)
deriving DecidableEq

/-- `Instrument.pileup_model_name`: `f'pileup{name}'.replace(' ', '')`. -/
def pileupModelName (name : String) : String :=
  String.mk (("pileup" ++ name).toList.filter (fun c => !(c == ' ')))

/-- Textual rendering of a link to a pileup model's parameter (PyXSPEC
turns an assigned `Parameter` object into a link string; the exact
rendering is engine-internal, so the model uses a canonical one). -/
def linkString (pileupName compName paramName : String) : String :=
  "= " ++ pileupName ++ ":" ++ compName ++ "." ++ paramName

def setParamLink (cn pn linkVal : String) (m : List Comp) :
    Option (List Comp) :=
  (lookupComp m cn).bind (fun c =>
    (lookupParam c pn).map (fun _ =>
      m.map (fun c2 =>
        if c2.name == cn then
          { c2 with params := c2.params.map (fun p =>
              if p.name == pn then { p with link := linkVal } else p) }
        else c2)))

def linkComponentParams (pname : String) (c : Comp) (signal : List Comp) :
    Option (List Comp) :=
  c.params.foldl
    (fun acc p => acc.bind (setParamLink c.name p.name (linkString pname c.name p.name)))
    (some signal)

def linkSignalToPileup (pname : String) (pm signal : List Comp) :
    Option (List Comp) :=
  pm.foldl (fun acc c => acc.bind (linkComponentParams pname c)) (some signal)

def sixZeros : List ℚ := [0, 0, 0, 0, 0, 0]

def zeroFreezeComponent (c : Comp) : Comp :=
  { c with params := c.params.map (fun p =>
      { p with values := sixZeros, frozen := true }) }

def zeroFreezeComponents (names : List String) (signal : List Comp) :
    Option (List Comp) :=
  names.foldl (fun acc n => acc.bind (fun m =>
    if m.any (fun c => c.name == n) then
      some (m.map (fun c => if c.name == n then zeroFreezeComponent c else c))
    else none)) (some signal)

/-- `ref_model` after the first loop: the pileup model of the last
instrument (in registration order) that has one. -/
def lastPileupModel (insts : List Inst) : Option (List Comp) :=
  insts.foldl (fun acc i =>
    match i.pileupModel with
    | some pm => some pm
    | none => acc) none

def pileupPhase1 : List Inst → Option (List Inst)
  | [] => some []
  | inst :: rest =>
    match inst.pileupModel with
    | some pm =>
      (linkSignalToPileup (pileupModelName inst.name) pm inst.signalModel).bind
        (fun s => (pileupPhase1 rest).map
          (fun r => { inst with signalModel := s } :: r))
    | none => (pileupPhase1 rest).map (fun r => inst :: r)

def pileupPhase2 (refNames : List String) : List Inst → Option (List Inst)
  | [] => some []
  | inst :: rest =>
    match inst.pileupModel with
    | some _ => (pileupPhase2 refNames rest).map (fun r => inst :: r)
    | none =>
      (zeroFreezeComponents refNames inst.signalModel).bind
        (fun s => (pileupPhase2 refNames rest).map
          (fun r => { inst with signalModel := s } :: r))

def setPileupLinks (insts : List Inst) : Option (List Inst) :=
  (pileupPhase1 insts).bind (fun insts1 =>
    match lastPileupModel insts1 with
    | some ref => pileupPhase2 (ref.map Comp.name) insts1
    | none => if insts1.isEmpty then some insts1 else none)

/-! ## `archive_previous`

Per-instrument query outcome: `signal = none` models the external engine
raising on `get_signal_model` (the `try`/`except: continue`); `pileup`
is present exactly when the instrument has a pileup file.  The early
return covers missing `current_model`/`results` attributes.  Note the
faithful quirk: when a pileup model is archived, the instrument's entry
in the returned mapping is *reassigned*, leaving only the `'pileup'`
key. -/

structure InstrumentQuery where
  name : String
  signal : Option AModel
  pileup : Option AModel
deriving DecidableEq

def archivePrevious (hasCurrentModel hasResults : Bool) (archive : Archive)
    (queries : List InstrumentQuery) :
    Archive × List (String × List (String × AModel)) :=
  if !(hasCurrentModel && hasResults) then (archive, [])
  else queries.foldl (fun st q =>
    match q.signal with
    | none => st
    | some sm =>
      let a1 := addModel st.1 q.name sm
      match q.pileup with
      | some pm => (addModel a1 q.name pm, st.2 ++ [(q.name, [("pileup", pm)])])
      | none => (a1, st.2 ++ [(q.name, [("signal", sm)])]))
    (archive, [])

/-- The entry one instrument contributes to the returned
`newly_archived` mapping (`none` when its signal-model query raised). -/
def newlyEntry (q : InstrumentQuery) :
    Option (String × List (String × AModel)) :=
  match q.signal with
  | none => none
  | some sm =>
    match q.pileup with
    | some pm => some (q.name, [("pileup", pm)])
    | none => some (q.name, [("signal", sm)])

/-! ## General lookup lemmas -/

theorem find?_map_of_pred_eq {α : Type _} (f : α → α) (p : α → Bool)
    (hf : ∀ x, p (f x) = p x) (l : List α) :
    (l.map f).find? p = (l.find? p).map f := by
  induction l with
  | nil => rfl
  | cons x l ih =>
    by_cases hx : p x = true
    · rw [List.map_cons, List.find?_cons_of_pos _ (by rw [hf]; exact hx),
        List.find?_cons_of_pos _ hx, Option.map_some']
    · rw [List.map_cons, List.find?_cons_of_neg _ (by rw [hf]; simpa using hx),
        List.find?_cons_of_neg _ (by simpa using hx), ih]

theorem find?_eq_of_nodup_keys {β : Type _} (l : List (String × β))
    (hnd : (l.map Prod.fst).Nodup) (n : String) (v : β) (hm : (n, v) ∈ l) :
    l.find? (fun e => e.1 == n) = some (n, v) := by
  induction l with
  | nil => cases hm
  | cons e l ih =>
    rcases List.mem_cons.mp hm with he | hm2
    · subst he
      exact List.find?_cons_of_pos _ (by simp)
    · have hne : e.1 ≠ n := by
        intro hcontra
        have : n ∈ l.map Prod.fst :=
          List.mem_map.mpr ⟨(n, v), hm2, rfl⟩
        rw [List.map_cons, List.nodup_cons] at hnd
        exact hnd.1 (hcontra ▸ this)
      rw [List.find?_cons_of_neg _ (by simpa using hne)]
      exact ih (by rw [List.map_cons, List.nodup_cons] at hnd; exact hnd.2) hm2

/-- `lookupComp` through a name-preserving per-component map. -/
theorem lookupComp_map (g : Comp → Comp) (hg : ∀ c, (g c).name = c.name)
    (m : List Comp) (n : String) :
    lookupComp (m.map g) n = (lookupComp m n).map g :=
  find?_map_of_pred_eq g _ (fun c => by simp [hg c]) m

/-- `lookupParam` through a name-preserving per-parameter map. -/
theorem lookupParam_map (g : ParamRec → ParamRec)
    (hg : ∀ p, (g p).name = p.name) (c : Comp) (n : String) :
    (Comp.mk c.name (c.params.map g)).params.find? (fun p => p.name == n) =
      (lookupParam c n).map g :=
  find?_map_of_pred_eq g _ (fun p => by simp [hg p]) c.params

/-! ## C9: bin-edge derivation -/

/-- C9: for every non-empty list of energy bin centers and equal-length
list of half-widths, `compute_energy_edges` returns a list of length
`n + 1` with `edge i = center i - halfwidth i` for `i < n` and a final
edge `center (n-1) + halfwidth (n-1)`; in particular centers
`[1, 2, 3]` with half-widths `[1/2, 1/2, 1/2]` give
`[1/2, 3/2, 5/2, 7/2]`. -/
theorem C9_compute_energy_edges (energy energy_err : List ℚ)
    (hne : energy ≠ []) (hlen : energy.length = energy_err.length) :
    (compute_energy_edges energy energy_err).length = energy.length + 1 ∧
    (∀ i (hi : i < energy.length),
      (compute_energy_edges energy energy_err)[i]? =
        some (energy[i] - energy_err[i])) ∧
    (compute_energy_edges energy energy_err)[energy.length]? =
      some (energy.getLast hne +
        energy_err.getLast (by
          intro h
          rw [h] at hlen
          simp at hlen
          exact hne hlen)) ∧
    compute_energy_edges [1, 2, 3] [1/2, 1/2, 1/2] = [1/2, 3/2, 5/2, 7/2] := by
  have herrne : energy_err ≠ [] := by
    intro h
    rw [h] at hlen
    simp at hlen
    exact hne hlen
  have hzlen : (List.zipWith (fun a b => a - b) energy energy_err).length =
      energy.length := by
    rw [List.length_zipWith, hlen, Nat.min_self]
  refine ⟨?_, ?_, ?_, ?_⟩
  · simp [compute_energy_edges, List.length_zipWith, hlen]
  · intro i hi
    rw [compute_energy_edges, List.getElem?_append_left (by rw [hzlen]; exact hi),
      List.getElem?_zipWith']
    rw [List.getElem?_eq_getElem hi, List.getElem?_eq_getElem (hlen ▸ hi)]
    rfl
  · rw [compute_energy_edges, List.getElem?_append_right (by rw [hzlen]),
      hzlen, Nat.sub_self]
    have h1 : energy.getLastD 0 = energy.getLast hne := by
      rw [List.getLastD_eq_getLast?, List.getLast?_eq_getLast energy hne,
        Option.getD_some]
    have h2 : energy_err.getLastD 0 = energy_err.getLast herrne := by
      rw [List.getLastD_eq_getLast?, List.getLast?_eq_getLast energy_err herrne,
        Option.getD_some]
    rw [h1, h2]
    rfl
  · simp only [compute_energy_edges, List.zipWith, List.getLastD]
    norm_num

/-- Closed-form witness for C9 at the concrete spec input. -/
theorem C9_witness :
    compute_energy_edges [1, 2, 3] [1/2, 1/2, 1/2] = [1/2, 3/2, 5/2, 7/2] :=
  (C9_compute_energy_edges [1, 2, 3] [1/2, 1/2, 1/2]
    (List.cons_ne_nil 1 [2, 3]) rfl).2.2.2

/-! ## C10: normalization rewrites only the exact token `const*` -/

/-- C10: the normalization step only rewrites exact occurrences of the
substring `const*`; an expression containing only the spaced shorthand
(no exact `const*`), with no previous expression and no pileup
expression, is returned unchanged — in particular `const * vapec` is
returned verbatim and still does not contain `constant`, the token the
extend patterns look for. -/
theorem C10_normalization_exact (e : List Char)
    (h : containsSub constStar e = false) :
    configureNewExpression [] [] e = some e ∧
    configureNewExpression [] [] "const * vapec".toList =
      some "const * vapec".toList ∧
    containsSub constantLit "const * vapec".toList = false := by
  refine ⟨?_, by decide, by decide⟩
  simp [configureNewExpression, normalizeShorthand, h]

/-- Witness for C10 at the concrete spaced-shorthand input. -/
theorem C10_witness :
    configureNewExpression [] [] "const * vapec".toList =
      some "const * vapec".toList :=
  (C10_normalization_exact "const * vapec".toList (by decide)).1

/-! ## C7: duplicate archive insertion is a warned no-op -/

/-- The per-entry update performed by `addModel`. -/
theorem addModel_entry_fst (inst : String) (m : AModel)
    (x : String × List (String × AModel)) :
    ((fun e : String × List (String × AModel) =>
      if e.1 == inst then
        (e.1, if e.2.any (fun q => q.1 == m.name) then e.2
              else e.2 ++ [(m.name, m)])
      else e) x).1 = x.1 := by
  by_cases hx : (x.1 == inst) = true
  · simp [hx]
  · simp [hx]

/-- C7: inserting an archived model under a name already present for
that instrument leaves the archive unchanged (the first capture wins,
and the total function never raises); more generally no `addModel` call
ever changes an existing (instrument, model-name) entry. -/
theorem C7_archive_duplicate_noop :
    (∀ (a : Archive) (inst : String) (m m0 : AModel),
      (a.map Prod.fst).Nodup →
      lookupArchived a inst m.name = some m0 →
      addModel a inst m = a) ∧
    (∀ (a : Archive) (inst : String) (m : AModel) (inst2 n : String)
      (m1 : AModel),
      lookupArchived a inst2 n = some m1 →
      lookupArchived (addModel a inst m) inst2 n = some m1) := by
  constructor
  · intro a inst m m0 hnd hdup
    unfold lookupArchived at hdup
    rcases Option.bind_eq_some.mp hdup with ⟨e, he, hinner⟩
    rcases Option.map_eq_some'.mp hinner with ⟨q, hq, hq2⟩
    have hpe : (e.1 == inst) = true := by
      have := List.find?_some he
      simpa using this
    have hany : a.any (fun x => x.1 == inst) = true :=
      List.any_eq_true.mpr ⟨e, List.mem_of_find?_eq_some he, hpe⟩
    have hanyin : e.2.any (fun x => x.1 == m.name) = true :=
      List.any_eq_true.mpr ⟨q, List.mem_of_find?_eq_some hq, by
        have := List.find?_some hq
        simpa using this⟩
    unfold addModel
    rw [if_pos hany]
    have hfix : ∀ x ∈ a,
        (if x.1 == inst then
          (x.1, if x.2.any (fun q => q.1 == m.name) then x.2
                else x.2 ++ [(m.name, m)])
        else x) = x := by
      intro x hx
      by_cases hx1 : (x.1 == inst) = true
      · have hxe : x = e := by
          refine List.inj_on_of_nodup_map hnd hx
            (List.mem_of_find?_eq_some he) ?_
          have h1 : x.1 = inst := by simpa using hx1
          have h2 : e.1 = inst := by simpa using hpe
          rw [h1, h2]
        subst hxe
        rw [if_pos hx1, if_pos hanyin]
      · rw [if_neg hx1]
    calc a.map _ = a.map id := List.map_congr_left hfix
    _ = a := List.map_id a
  · intro a inst m inst2 n m1 hm1
    unfold lookupArchived at hm1 ⊢
    rcases Option.bind_eq_some.mp hm1 with ⟨e2, he2, hinner⟩
    rcases Option.map_eq_some'.mp hinner with ⟨q, hq, hq2⟩
    unfold addModel
    have hpred : ∀ x : String × List (String × AModel),
        (((fun e : String × List (String × AModel) =>
          if e.1 == inst then
            (e.1, if e.2.any (fun q => q.1 == m.name) then e.2
                  else e.2 ++ [(m.name, m)])
          else e) x).1 == inst2) = (x.1 == inst2) := by
      intro x
      rw [addModel_entry_fst]
    have hstep : ∀ a1 : Archive,
        a1.find? (fun e => e.1 == inst2) = some e2 →
        ((a1.map (fun e : String × List (String × AModel) =>
          if e.1 == inst then
            (e.1, if e.2.any (fun q => q.1 == m.name) then e.2
                  else e.2 ++ [(m.name, m)])
          else e)).find? (fun e => e.1 == inst2)).bind
            (fun e => (e.2.find? (fun q => q.1 == n)).map (fun q => q.2)) =
          some m1 := by
      intro a1 hfind1
      rw [find?_map_of_pred_eq _ _ hpred a1, hfind1, Option.map_some',
        Option.some_bind]
      by_cases he2i : (e2.1 == inst) = true
      · rw [if_pos he2i]
        by_cases hin : e2.2.any (fun q => q.1 == m.name) = true
        · rw [if_pos hin, hq, Option.map_some', hq2]
        · rw [if_neg hin, List.find?_append, hq, Option.or_some, Option.map_some', hq2]
      · rw [if_neg he2i, hq, Option.map_some', hq2]
    by_cases hany : a.any (fun x => x.1 == inst) = true
    · rw [if_pos hany]
      exact hstep a he2
    · rw [if_neg hany]
      refine hstep (a ++ [(inst, [])]) ?_
      rw [List.find?_append, he2, Option.or_some]

/-- Witness for C7 at a concrete two-entry archive. -/
theorem C7_witness :
    addModel [("nustar", [("m1", ⟨"m1", []⟩)])] "nustar" ⟨"m1", [⟨"vapec", []⟩]⟩ =
      [("nustar", [("m1", ⟨"m1", []⟩)])] :=
  C7_archive_duplicate_noop.1 [("nustar", [("m1", ⟨"m1", []⟩)])] "nustar"
    ⟨"m1", [⟨"vapec", []⟩]⟩ ⟨"m1", []⟩ (by decide) (by decide)

/-! ## C8: archive_previous never aborts the batch -/

/-- The accumulator shape of the `archive_previous` loop. -/
theorem archivePrevious_foldl_snd (queries : List InstrumentQuery) :
    ∀ st : Archive × List (String × List (String × AModel)),
    (queries.foldl (fun st q =>
      match q.signal with
      | none => st
      | some sm =>
        let a1 := addModel st.1 q.name sm
        match q.pileup with
        | some pm => (addModel a1 q.name pm, st.2 ++ [(q.name, [("pileup", pm)])])
        | none => (a1, st.2 ++ [(q.name, [("signal", sm)])])) st).2 =
      st.2 ++ queries.filterMap newlyEntry := by
  induction queries with
  | nil => intro st; simp
  | cons q rest ih =>
    intro st
    match hs : q.signal with
    | none =>
      simp only [List.foldl_cons, List.filterMap_cons, newlyEntry, hs]
      exact ih st
    | some sm =>
      match hp : q.pileup with
      | some pm =>
        simp only [List.foldl_cons, List.filterMap_cons, newlyEntry, hs, hp]
        rw [ih]
        simp
      | none =>
        simp only [List.foldl_cons, List.filterMap_cons, newlyEntry, hs, hp]
        rw [ih]
        simp

/-- C8: `archive_previous` archives nothing before any model has been
assembled, and a per-instrument query failure only silences that
instrument: the result is the independent concatenation over all
instruments, so every successfully queried instrument contributes its
entry no matter which other instruments failed. -/
theorem C8_archive_previous (archive : Archive)
    (queries : List InstrumentQuery) :
    (∀ hres : Bool, archivePrevious false hres archive queries = (archive, [])) ∧
    (archivePrevious true true archive queries).2 =
      queries.filterMap newlyEntry ∧
    (∀ q ∈ queries, q.signal.isSome →
      ∃ e, newlyEntry q = some e ∧
        e ∈ (archivePrevious true true archive queries).2) := by
  refine ⟨?_, ?_, ?_⟩
  · intro hres
    simp [archivePrevious]
  · unfold archivePrevious
    simp only [Bool.true_and, Bool.not_true, Bool.false_eq_true, if_false]
    rw [archivePrevious_foldl_snd queries (archive, [])]
    simp
  · intro q hqmem hqsome
    have he : ∃ e, newlyEntry q = some e := by
      match hs : q.signal with
      | none => rw [hs] at hqsome; cases hqsome
      | some sm =>
        match hp : q.pileup with
        | some pm =>
          exact ⟨(q.name, [("pileup", pm)]), by simp [newlyEntry, hs, hp]⟩
        | none =>
          exact ⟨(q.name, [("signal", sm)]), by simp [newlyEntry, hs, hp]⟩
    rcases he with ⟨e, he⟩
    refine ⟨e, he, ?_⟩
    have h2 : (archivePrevious true true archive queries).2 =
        queries.filterMap newlyEntry := by
      unfold archivePrevious
      simp only [Bool.true_and, Bool.not_true, Bool.false_eq_true, if_false]
      rw [archivePrevious_foldl_snd queries (archive, [])]
      simp
    rw [h2]
    exact List.mem_filterMap.mpr ⟨q, hqmem, he⟩

/-- Witness for C8: a failing middle instrument does not stop the later
instrument from being archived. -/
theorem C8_witness :
    ∃ e, newlyEntry ⟨"c", some ⟨"m1", []⟩, none⟩ = some e ∧
      e ∈ (archivePrevious true true []
        [⟨"a", some ⟨"m1", []⟩, none⟩, ⟨"b", none, none⟩,
         ⟨"c", some ⟨"m1", []⟩, none⟩]).2 :=
  (C8_archive_previous []
    [⟨"a", some ⟨"m1", []⟩, none⟩, ⟨"b", none, none⟩,
     ⟨"c", some ⟨"m1", []⟩, none⟩]).2.2
    ⟨"c", some ⟨"m1", []⟩, none⟩ (by decide) (by decide)

/-! ## C4: naming disambiguation -/

theorem assignLoop_length (total : List Char → Nat) :
    ∀ (l : List (List Char)) (uses : List Char → Nat),
    (assignLoop total uses l).length = l.length := by
  intro l
  induction l with
  | nil => intro uses; rfl
  | cons n rest ih =>
    intro uses
    unfold assignLoop
    by_cases h : 1 < total n
    · rw [if_pos h]
      simp [ih]
    · rw [if_neg h]
      simp [ih]

/-- Closed form of the disambiguation loop: position `i` gets the
1-based running count of its base name in the prefix up to `i`
(offset by the virtual already-processed prefix `p`) appended, exactly
when the name's total count exceeds one. -/
theorem assignLoop_getElem? (total : List Char → Nat) :
    ∀ (l : List (List Char)) (uses : List Char → Nat) (p : List (List Char)),
    (∀ x, 1 < total x → uses x = p.count x) →
    ∀ (i : Nat) (b : List Char), l[i]? = some b →
    (assignLoop total uses l)[i]? =
      some (if 1 < total b then
              b ++ Nat.toDigits 10 (p.count b + (l.take (i + 1)).count b)
            else b) := by
  intro l
  induction l with
  | nil =>
    intro uses p hu i b hib
    simp at hib
  | cons n rest ih =>
    intro uses p hu i b hib
    match i with
    | 0 =>
      rw [List.getElem?_cons_zero] at hib
      injection hib with hb
      subst hb
      unfold assignLoop
      by_cases h : 1 < total n
      · rw [if_pos h, List.getElem?_cons_zero, if_pos h, hu n h]
        have hc : ((n :: rest).take 1).count n = 1 := by
          simp [List.count_cons]
        rw [hc]
      · rw [if_neg h, List.getElem?_cons_zero, if_neg h]
    | Nat.succ j =>
      rw [List.getElem?_cons_succ] at hib
      unfold assignLoop
      have hcnt : ∀ q : List (List Char),
          (q ++ [n]).count b + (rest.take (j + 1)).count b =
            q.count b + ((n :: rest).take (j + 1 + 1)).count b := by
        intro q
        simp only [List.take_succ_cons, List.count_append, List.count_cons,
          List.count_nil]
        omega
      by_cases h : 1 < total n
      · rw [if_pos h, List.getElem?_cons_succ,
          ih (updateFn uses n (uses n + 1)) (p ++ [n]) ?_ j b hib]
        · rw [hcnt p]
        · intro x hx
          unfold updateFn
          by_cases hxn : x = n
          · subst hxn
            rw [if_pos rfl, hu x hx]
            simp [List.count_append, List.count_cons]
          · rw [if_neg hxn, hu x hx]
            simp [List.count_append, List.count_cons, hxn]
      · rw [if_neg h, List.getElem?_cons_succ,
          ih uses (p ++ [n]) ?_ j b hib]
        · rw [hcnt p]
        · intro x hx
          have hxn : x ≠ n := by
            intro hcontra
            exact h (hcontra ▸ hx)
          rw [hu x hx]
          simp [List.count_append, List.count_cons, hxn]

/-- C4: instance names assigned by `_archive_components`: every base
name with total multiplicity above one receives its 1-based occurrence
index (in order of appearance) as a suffix, a base name occurring once
keeps its bare name; the `["vapec","vapec","bknpower"]` model yields
`["vapec1","vapec2","bknpower"]`; and the assignment is a pure function
of the ordered component list, so re-running it yields identical
names. -/
theorem C4_disambiguation (comps : List (List Char)) (i : Nat)
    (b : List Char) (hib : (comps.map baseName)[i]? = some b) :
    (instanceNames comps).length = comps.length ∧
    (instanceNames comps)[i]? =
      some (if 1 < (comps.map baseName).count b then
              b ++ Nat.toDigits 10 (((comps.map baseName).take (i + 1)).count b)
            else b) ∧
    instanceNames ["vapec".toList, "vapec".toList, "bknpower".toList] =
      ["vapec1".toList, "vapec2".toList, "bknpower".toList] ∧
    instanceNames comps = instanceNames comps := by
  refine ⟨?_, ?_, by decide, rfl⟩
  · unfold instanceNames
    rw [assignLoop_length]
    simp
  · unfold instanceNames
    rw [assignLoop_getElem? _ (comps.map baseName) (fun _ => 0) []
      (fun x _ => rfl) i b hib]
    simp

/-- Witness for C4 at the duplicated-vapec model, position 0. -/
theorem C4_witness :
    (instanceNames ["vapec".toList, "vapec".toList, "bknpower".toList])[0]? =
      some (if 1 < ((["vapec".toList, "vapec".toList, "bknpower".toList]).map
              baseName).count "vapec".toList then
              "vapec".toList ++ Nat.toDigits 10
                ((((["vapec".toList, "vapec".toList, "bknpower".toList]).map
                  baseName).take 1).count "vapec".toList)
            else "vapec".toList) :=
  (C4_disambiguation ["vapec".toList, "vapec".toList, "bknpower".toList] 0
    "vapec".toList (by decide)).2.1

/-! ## C1: the expression-extend operation -/

/-- C1 counterexample: with a standing pileup expression and no previous
expression, `_configure_new_expression` does *not* return the (already
normalized) new component expression itself — the pileup expression is
prefixed — so the claim as stated fails on this call. -/
theorem C1_counterexample :
    configureNewExpression "expmodgauss".toList [] "vapec".toList =
      some "expmodgauss + vapec".toList ∧
    normalizeShorthand "vapec".toList = "vapec".toList ∧
    "expmodgauss + vapec".toList ≠ "vapec".toList := by
  refine ⟨by decide, by decide, by decide⟩

/-- C1 (amended): with no standing pileup expression the three claimed
branches hold — no previous expression returns the normalized new
component expression; a previous expression without the `constant` token
gets `' + new'` appended directly; a previous expression with the token
has its parsed inner body extended by `' + new'` and re-wrapped in the
parenthesized constant wrapper (with the parse's leading `outer`
preserved).  With a standing pileup expression the same result is
additionally prefixed by `pileup + ' + '`. -/
theorem C1_extend_amended (pileup old neww : List Char) :
    (old = [] → configureNewExpression [] old neww =
      some (normalizeShorthand neww)) ∧
    (old ≠ [] → containsSub constantLit old = false →
      configureNewExpression [] old neww =
        some (old ++ plusSep ++ normalizeShorthand neww)) ∧
    (∀ outer inner, old ≠ [] → containsSub constantLit old = true →
      parseConstant (' ' :: old) = some (outer, inner) →
      configureNewExpression [] old neww =
        some (outer ++ constantParenLit ++
          (inner ++ plusSep ++ normalizeShorthand neww) ++ [')'])) ∧
    (pileup ≠ [] →
      configureNewExpression pileup old neww =
        (configureNewExpression [] old neww).map
          (fun r => pileup ++ plusSep ++ r)) := by
  refine ⟨?_, ?_, ?_, ?_⟩
  · intro h
    subst h
    simp [configureNewExpression]
  · intro hold hc
    have h1 : old.isEmpty = false := by
      simpa [List.isEmpty_iff] using hold
    simp [configureNewExpression, h1, hc]
  · intro outer inner hold hcon hp
    have h1 : old.isEmpty = false := by
      simpa [List.isEmpty_iff] using hold
    simp [configureNewExpression, h1, hcon, hp]
  · intro hpne
    have hpe : pileup.isEmpty = false := by
      simpa [List.isEmpty_iff] using hpne
    unfold configureNewExpression
    simp only [List.isEmpty_nil, if_true, hpe, Bool.false_eq_true, if_false,
      Option.map_map]
    rfl

/-- Witness for C1 at a concrete wrapped previous expression with a
standing pileup expression. -/
theorem C1_witness :
    configureNewExpression "expmodgauss".toList "constant*(vapec)".toList
        "bknpower".toList =
      some ("expmodgauss".toList ++ plusSep ++
        (" ".toList ++ constantParenLit ++
          ("vapec".toList ++ plusSep ++ normalizeShorthand "bknpower".toList) ++
          [')'])) := by
  have h := C1_extend_amended "expmodgauss".toList "constant*(vapec)".toList
    "bknpower".toList
  rw [h.2.2.2 (by decide),
    h.2.2.1 " ".toList "vapec".toList (by decide) (by decide) (by decide)]
  rfl

/-! ## C3: multi-group constant-factor convention -/

/-- `lookupCompParam` at (`constant`, `factor`) through `setFactorParam`. -/
theorem lookupCompParam_setFactor (f : ParamRec → ParamRec)
    (hf : ∀ p, (f p).name = p.name) (m : List Comp) :
    lookupCompParam (setFactorParam f m) "constant" "factor" =
      (lookupCompParam m "constant" "factor").map f := by
  unfold lookupCompParam setFactorParam
  rw [lookupComp_map _ (fun c => by
    by_cases hc : (c.name == "constant") = true
    · simp [hc]
    · simp [hc]) m]
  cases hm : lookupComp m "constant" with
  | none => rfl
  | some c =>
    simp only [Option.map_some', Option.some_bind]
    have hcname : (c.name == "constant") = true := by
      unfold lookupComp at hm
      have := List.find?_some hm
      simpa using this
    rw [if_pos hcname]
    unfold lookupParam
    rw [find?_map_of_pred_eq _ _ (fun p => by
      by_cases hp : (p.name == "factor") = true
      · simp [hp, hf p]
      · simp [hp]) c.params]
    cases hp : c.params.find? (fun p => p.name == "factor") with
    | none => rfl
    | some p =>
      have hpname : (p.name == "factor") = true := by
        have := List.find?_some hp
        simpa using this
      simp only [Option.map_some']
      rw [if_pos hpname]

/-- Any `factor` found after `freeGroupFactor` is unfrozen, unlinked and
has leading value 1. -/
theorem freeGroupFactor_props (m : List Comp) (p : ParamRec)
    (hp : lookupCompParam (freeGroupFactor m) "constant" "factor" = some p) :
    p.frozen = false ∧ p.link = "" ∧ p.values.head? = some 1 := by
  rw [freeGroupFactor,
    lookupCompParam_setFactor
      (fun p =>
        { p with
          values := overwriteValues p.values [1], link := "", frozen := false })
      (fun p => rfl) m] at hp
  rcases Option.map_eq_some'.mp hp with ⟨q, hq, hq2⟩
  subst hq2
  refine ⟨rfl, rfl, ?_⟩
  simp [overwriteValues]

theorem freeGroupFactor_isSome (m : List Comp) :
    (lookupCompParam (freeGroupFactor m) "constant" "factor").isSome =
      (lookupCompParam m "constant" "factor").isSome := by
  rw [freeGroupFactor,
    lookupCompParam_setFactor
      (fun p =>
        { p with
          values := overwriteValues p.values [1], link := "", frozen := false })
      (fun p => rfl) m]
  cases lookupCompParam m "constant" "factor" <;> rfl

/-- Properties of the free-the-other-groups fold in `add_component`. -/
theorem constConvention_foldl (firstGroup : Nat) (l : List Nat) :
    ∀ acc : Nat → List Comp,
    (l.foldl (fun acc g =>
        if g ≠ firstGroup then updateGroups acc g (freeGroupFactor (acc g))
        else acc) acc) firstGroup = acc firstGroup ∧
    (∀ g, (lookupCompParam ((l.foldl (fun acc g =>
        if g ≠ firstGroup then updateGroups acc g (freeGroupFactor (acc g))
        else acc) acc) g) "constant" "factor").isSome =
      (lookupCompParam (acc g) "constant" "factor").isSome) ∧
    (∀ g ∈ l, g ≠ firstGroup →
      ∀ p, lookupCompParam ((l.foldl (fun acc g =>
          if g ≠ firstGroup then updateGroups acc g (freeGroupFactor (acc g))
          else acc) acc) g) "constant" "factor" = some p →
        p.frozen = false ∧ p.link = "" ∧ p.values.head? = some 1) ∧
    (∀ g, (∀ p, lookupCompParam (acc g) "constant" "factor" = some p →
        p.frozen = false ∧ p.link = "" ∧ p.values.head? = some 1) →
      (∀ p, lookupCompParam ((l.foldl (fun acc g =>
          if g ≠ firstGroup then updateGroups acc g (freeGroupFactor (acc g))
          else acc) acc) g) "constant" "factor" = some p →
        p.frozen = false ∧ p.link = "" ∧ p.values.head? = some 1)) := by
  induction l with
  | nil =>
    intro acc
    exact ⟨rfl, fun g => rfl, fun g hg => absurd hg (List.not_mem_nil g),
      fun g h => h⟩
  | cons g0 rest ih =>
    intro acc
    simp only [List.foldl_cons]
    by_cases hg0 : g0 ≠ firstGroup
    · rw [if_pos hg0]
      have hstep : ∀ g, (updateGroups acc g0 (freeGroupFactor (acc g0))) g =
          if g = g0 then freeGroupFactor (acc g0) else acc g := fun g => rfl
      obtain ⟨ih1, ih2, ih3, ih4⟩ := ih (updateGroups acc g0 (freeGroupFactor (acc g0)))
      refine ⟨?_, ?_, ?_, ?_⟩
      · rw [ih1, hstep, if_neg (fun h => hg0 h.symm)]
      · intro g
        rw [ih2 g, hstep]
        by_cases hgg : g = g0
        · rw [if_pos hgg, hgg, freeGroupFactor_isSome]
        · rw [if_neg hgg]
      · intro g hgmem hgne p
        rcases List.mem_cons.mp hgmem with hgg | hgmem2
        · subst hgg
          refine ih4 g ?_ p
          intro q hq
          rw [hstep, if_pos rfl] at hq
          exact freeGroupFactor_props _ q hq
        · exact ih3 g hgmem2 hgne p
      · intro g hacc p
        refine ih4 g ?_ p
        intro q hq
        rw [hstep] at hq
        by_cases hgg : g = g0
        · rw [if_pos hgg] at hq
          exact freeGroupFactor_props _ q hq
        · rw [if_neg hgg] at hq
          exact hacc q hq
    · rw [if_neg hg0]
      have hg0eq : g0 = firstGroup := not_not.mp hg0
      obtain ⟨ih1, ih2, ih3, ih4⟩ := ih acc
      refine ⟨ih1, ih2, ?_, ih4⟩
      intro g hgmem hgne p
      rcases List.mem_cons.mp hgmem with hgg | hgmem2
      · exact absurd (hgg.trans hg0eq) hgne
      · exact ih3 g hgmem2 hgne p

/-- C3: after the final block of `add_component`, the `constant` factor
of the first signal data group is frozen and unlinked, and the factor of
every other signal data group is unfrozen, unlinked and set to 1.0. -/
theorem C3_constant_factor_convention (signalGroups : List Nat)
    (models res : Nat → List Comp) (firstGroup : Nat) (rest : List Nat)
    (hg : signalGroups = firstGroup :: rest)
    (hconst : (models firstGroup).any (fun c => c.name == "constant") = true)
    (hres : applyConstantConvention signalGroups models = some res)
    (hfacs : ∀ g ∈ signalGroups,
      (lookupCompParam (models g) "constant" "factor").isSome = true) :
    (∃ p, lookupCompParam (res firstGroup) "constant" "factor" = some p ∧
      p.frozen = true ∧ p.link = "") ∧
    (∀ g ∈ signalGroups, g ≠ firstGroup →
      ∃ p, lookupCompParam (res g) "constant" "factor" = some p ∧
        p.frozen = false ∧ p.link = "" ∧ p.values.head? = some 1) := by
  subst hg
  simp only [applyConstantConvention] at hres
  rw [if_pos hconst] at hres
  injection hres with hres
  obtain ⟨h1, h2, h3, _⟩ := constConvention_foldl firstGroup
    (firstGroup :: rest)
    (updateGroups models firstGroup (freezeFirstFactor (models firstGroup)))
  constructor
  · rw [← hres, h1]
    have hm1 : (updateGroups models firstGroup
        (freezeFirstFactor (models firstGroup))) firstGroup =
        freezeFirstFactor (models firstGroup) := by
      unfold updateGroups
      rw [if_pos rfl]
    rw [hm1, freezeFirstFactor,
      lookupCompParam_setFactor (fun p => { p with link := "", frozen := true })
        (fun p => rfl) (models firstGroup)]
    have := hfacs firstGroup (List.mem_cons_self firstGroup rest)
    rcases Option.isSome_iff_exists.mp this with ⟨q, hq⟩
    rw [hq]
    exact ⟨_, rfl, rfl, rfl⟩
  · intro g hgmem hgne
    have hsome : (lookupCompParam (res g) "constant" "factor").isSome = true := by
      rw [← hres, h2 g]
      have hm1g : (updateGroups models firstGroup
          (freezeFirstFactor (models firstGroup))) g = models g := by
        unfold updateGroups
        rw [if_neg hgne]
      rw [hm1g]
      exact hfacs g hgmem
    rcases Option.isSome_iff_exists.mp hsome with ⟨p, hp⟩
    refine ⟨p, hp, ?_⟩
    exact h3 g hgmem hgne p (hres ▸ hp)

/-- Witness for C3: two signal groups, a linked unfrozen factor. -/
theorem C3_witness :
    ∃ res, applyConstantConvention [1, 2]
        (fun _ => [Comp.mk "constant"
          [ParamRec.mk "factor" [5, 1, 0, 0, 10, 10] [] "= other:1" false]]) =
      some res ∧
    ∃ p, lookupCompParam (res 1) "constant" "factor" = some p ∧
      p.frozen = true ∧ p.link = "" := by
  refine ⟨_, rfl, ?_⟩
  exact (C3_constant_factor_convention [1, 2]
    (fun _ => [Comp.mk "constant"
      [ParamRec.mk "factor" [5, 1, 0, 0, 10, 10] [] "= other:1" false]])
    _ 1 [2] rfl (by decide) rfl (by decide)).1

/-! ## C2: parameter migration -/

/-- `migrateComponent` preserves the component name. -/
theorem migrateComponent_name (oldc : Comp) (fp : Bool) (c : Comp) :
    (migrateComponent oldc fp c).name = c.name := rfl

/-- `lookupComp` through the guarded migration map of one archived
component. -/
theorem lookupComp_migrateMap (oldc : Comp) (fp : Bool) (cur : List Comp)
    (n : String) :
    lookupComp (cur.map (fun c =>
      if c.name == oldc.name then migrateComponent oldc fp c else c)) n =
      (lookupComp cur n).map (fun c =>
        if c.name == oldc.name then migrateComponent oldc fp c else c) := by
  refine lookupComp_map _ (fun c => ?_) cur n
  by_cases hc : (c.name == oldc.name) = true
  · simp [hc, migrateComponent_name]
  · simp [hc]

/-- Components whose name is not among the archived component names are
untouched by `migrateModel`. -/
theorem migrateModel_lookup_untouched (fp : Bool) (g : Nat) :
    ∀ (arch cur res : List Comp) (n : String),
    migrateModel fp g arch cur = some res →
    (∀ oc ∈ arch, oc.name ≠ n) →
    lookupComp res n = lookupComp cur n := by
  intro arch
  induction arch with
  | nil =>
    intro cur res n hres hnone
    unfold migrateModel at hres
    injection hres with hres
    rw [hres]
  | cons oldc rest ih =>
    intro cur res n hres hnone
    unfold migrateModel at hres
    by_cases hskip : (oldc.name == "constant" && g == 1) = true
    · rw [if_pos hskip] at hres
      exact ih cur res n hres (fun oc hoc => hnone oc (List.mem_cons_of_mem _ hoc))
    · rw [if_neg hskip] at hres
      by_cases hany : (cur.any fun c => c.name == oldc.name) = true
      · rw [if_pos hany] at hres
        rw [ih _ res n hres (fun oc hoc => hnone oc (List.mem_cons_of_mem _ hoc)),
          lookupComp_migrateMap]
        cases hc : lookupComp cur n with
        | none => rfl
        | some c =>
          have hcn : (c.name == n) = true := by
            unfold lookupComp at hc
            have := List.find?_some hc
            simpa using this
          have hne : (c.name == oldc.name) = false := by
            have h1 : c.name = n := by simpa using hcn
            have h2 : oldc.name ≠ n := hnone oldc (List.mem_cons_self _ _)
            simp [h1]
            exact fun hcontra => h2 hcontra.symm
          simp only [Option.map_some', hne, Bool.false_eq_true, if_false]
      · rw [if_neg hany] at hres
        cases hres

/-- For data group 1 the `constant` component is never migrated. -/
theorem migrateModel_constant_group1 (fp : Bool) :
    ∀ (arch cur res : List Comp),
    migrateModel fp 1 arch cur = some res →
    lookupComp res "constant" = lookupComp cur "constant" := by
  intro arch
  induction arch with
  | nil =>
    intro cur res hres
    unfold migrateModel at hres
    injection hres with hres
    rw [hres]
  | cons oldc rest ih =>
    intro cur res hres
    unfold migrateModel at hres
    by_cases hoc : (oldc.name == "constant") = true
    · rw [if_pos (by simp [hoc])] at hres
      exact ih cur res hres
    · have hskip : ¬(oldc.name == "constant" && (1 : Nat) == 1) = true := by
        simp [hoc]
      rw [if_neg hskip] at hres
      by_cases hany : (cur.any fun c => c.name == oldc.name) = true
      · rw [if_pos hany] at hres
        rw [ih _ res hres, lookupComp_migrateMap]
        cases hc : lookupComp cur "constant" with
        | none => rfl
        | some c =>
          have hcn : (c.name == "constant") = true := by
            unfold lookupComp at hc
            have := List.find?_some hc
            simpa using this
          have hne : (c.name == oldc.name) = false := by
            have h1 : c.name = "constant" := by simpa using hcn
            rw [h1]
            simp
            intro hcontra
            rw [hcontra] at hoc
            simp at hoc
          simp only [Option.map_some', hne, Bool.false_eq_true, if_false]
      · rw [if_neg hany] at hres
        cases hres

/-- A component present by the same name in archive and live model ends
up migrated. -/
theorem migrateModel_lookup_migrated (fp : Bool) (g : Nat) :
    ∀ (arch cur res : List Comp) (n : String) (oldc newc : Comp),
    migrateModel fp g arch cur = some res →
    (arch.map Comp.name).Nodup →
    lookupComp arch n = some oldc →
    lookupComp cur n = some newc →
    ¬(n = "constant" ∧ g = 1) →
    lookupComp res n = some (migrateComponent oldc fp newc) := by
  intro arch
  induction arch with
  | nil =>
    intro cur res n oldc newc hres hnd hold hnew hn
    unfold lookupComp at hold
    simp at hold
  | cons oldc0 rest ih =>
    intro cur res n oldc newc hres hnd hold hnew hn
    have hnewn : (newc.name == n) = true := by
      unfold lookupComp at hnew
      have := List.find?_some hnew
      simpa using this
    have hnewn' : newc.name = n := by simpa using hnewn
    unfold migrateModel at hres
    by_cases h0 : (oldc0.name == n) = true
    · have h0' : oldc0.name = n := by simpa using h0
      have holdc : oldc = oldc0 := by
        unfold lookupComp at hold
        have hstep : List.find? (fun c => c.name == n) (oldc0 :: rest) =
            some oldc0 := List.find?_cons_of_pos _ h0
        rw [hstep] at hold
        injection hold with hold
        exact hold.symm
      subst holdc
      have hskip : ¬(oldc.name == "constant" && g == 1) = true := by
        simp only [Bool.and_eq_true, beq_iff_eq]
        rintro ⟨hc1, hg1⟩
        exact hn ⟨h0'.symm.trans hc1, hg1⟩
      rw [if_neg hskip] at hres
      have hany : (cur.any fun c => c.name == oldc.name) = true := by
        refine List.any_eq_true.mpr ⟨newc, ?_, ?_⟩
        · unfold lookupComp at hnew
          exact List.mem_of_find?_eq_some hnew
        · rw [hnewn', h0']
          simp
      rw [if_pos hany] at hres
      have hrestn : ∀ oc ∈ rest, oc.name ≠ n := by
        intro oc hoc hcontra
        rw [List.map_cons, List.nodup_cons] at hnd
        exact hnd.1 (h0' ▸ hcontra ▸ List.mem_map.mpr ⟨oc, hoc, rfl⟩)
      rw [migrateModel_lookup_untouched fp g rest _ res n hres hrestn,
        lookupComp_migrateMap, hnew, Option.map_some']
      have : (newc.name == oldc.name) = true := by
        rw [hnewn', h0']
        simp
      rw [if_pos this]
    · have hold2 : lookupComp rest n = some oldc := by
        unfold lookupComp at hold ⊢
        have hstep : List.find? (fun c => c.name == n) (oldc0 :: rest) =
            List.find? (fun c => c.name == n) rest :=
          List.find?_cons_of_neg _ (by simpa using h0)
        rwa [hstep] at hold
      have hnd2 : (rest.map Comp.name).Nodup := by
        rw [List.map_cons, List.nodup_cons] at hnd
        exact hnd.2
      by_cases hskip : (oldc0.name == "constant" && g == 1) = true
      · rw [if_pos hskip] at hres
        exact ih cur res n oldc newc hres hnd2 hold2 hnew hn
      · rw [if_neg hskip] at hres
        by_cases hany : (cur.any fun c => c.name == oldc0.name) = true
        · rw [if_pos hany] at hres
          refine ih _ res n oldc newc hres hnd2 hold2 ?_ hn
          rw [lookupComp_migrateMap, hnew, Option.map_some']
          have hne2 : ¬(newc.name == oldc0.name) = true := by
            rw [hnewn']
            simp
            intro hcontra
            rw [hcontra] at h0
            simp at h0
          rw [if_neg hne2]
        · rw [if_neg hany] at hres
          cases hres

/-- C2: migration copies the archived six-value tuple and ORs the frozen
flag with `freeze_previous` for every same-named parameter of every
same-named component, skips linked archived parameters, and never
migrates the `constant` component of data group 1. -/
theorem C2_migration (fp : Bool) (g : Nat) (arch cur res : List Comp)
    (hres : migrateModel fp g arch cur = some res)
    (hnodup : (arch.map Comp.name).Nodup) :
    (∀ n oldc newc, lookupComp arch n = some oldc →
      lookupComp cur n = some newc → ¬(n = "constant" ∧ g = 1) →
      lookupComp res n = some (migrateComponent oldc fp newc) ∧
      (migrateComponent oldc fp newc).params =
        newc.params.map (migrateParam oldc fp)) ∧
    (∀ (oldc : Comp) (p oldp : ParamRec), lookupParam oldc p.name = some oldp →
      (oldp.link ≠ "" → migrateParam oldc fp p = p) ∧
      (oldp.link = "" → migrateParam oldc fp p =
        { p with values := overwriteValues p.values oldp.values,
                 frozen := oldp.frozen || fp }) ∧
      (oldp.link = "" → p.values.length ≤ oldp.values.length →
        (migrateParam oldc fp p).values = oldp.values)) ∧
    (g = 1 → lookupComp res "constant" = lookupComp cur "constant") := by
  refine ⟨?_, ?_, ?_⟩
  · intro n oldc newc hold hnew hn
    exact ⟨migrateModel_lookup_migrated fp g arch cur res n oldc newc hres
      hnodup hold hnew hn, rfl⟩
  · intro oldc p oldp hfind
    by_cases hl : (oldp.link == "") = true
    · have hl' : oldp.link = "" := by simpa using hl
      refine ⟨fun hcon => absurd hl' hcon, fun _ => ?_, fun _ hlen => ?_⟩
      · simp [migrateParam, hfind, hl]
      · simp only [migrateParam, hfind, hl, if_true, overwriteValues]
        rw [List.drop_eq_nil_of_le hlen, List.append_nil]
    · have hl' : oldp.link ≠ "" := by simpa using hl
      refine ⟨fun _ => ?_, fun hcon => absurd hcon hl',
        fun hcon => absurd hcon hl'⟩
      simp [migrateParam, hfind, hl]
  · intro hg1
    subst hg1
    exact migrateModel_constant_group1 fp arch cur res hres

/-- Witness for C2: one archived `vapec` with an unlinked frozen
parameter migrated into a fresh model on data group 2. -/
theorem C2_witness :
    ∃ r, migrateModel false 2
        [Comp.mk "vapec" [ParamRec.mk "kT" [3, 1, 0, 0, 9, 9] [] "" true]]
        [Comp.mk "vapec" [ParamRec.mk "kT" [6, 1, 0, 0, 9, 9] [] "" false]] =
      some r ∧
    lookupComp r "vapec" =
      some (migrateComponent
        (Comp.mk "vapec" [ParamRec.mk "kT" [3, 1, 0, 0, 9, 9] [] "" true])
        false
        (Comp.mk "vapec" [ParamRec.mk "kT" [6, 1, 0, 0, 9, 9] [] "" false])) := by
  refine ⟨_, rfl, ?_⟩
  exact ((C2_migration false 2
    [Comp.mk "vapec" [ParamRec.mk "kT" [3, 1, 0, 0, 9, 9] [] "" true]]
    [Comp.mk "vapec" [ParamRec.mk "kT" [6, 1, 0, 0, 9, 9] [] "" false]]
    _ rfl (by decide)).1 "vapec"
    (Comp.mk "vapec" [ParamRec.mk "kT" [3, 1, 0, 0, 9, 9] [] "" true])
    (Comp.mk "vapec" [ParamRec.mk "kT" [6, 1, 0, 0, 9, 9] [] "" false])
    rfl rfl (by decide)).1

/-! ## C5: parameter-limit application -/

theorem applyLimitEntry_lookupParam_ne (g : Nat) (tie : Bool) (cc : Comp)
    (entry : String × List ℚ) (x : String) (hx : entry.1 ≠ x) :
    lookupParam (applyLimitEntry g tie cc entry) x = lookupParam cc x := by
  unfold applyLimitEntry
  by_cases hany : (cc.params.any fun p => p.name == entry.1) = true
  · rw [if_pos hany]
    by_cases hskip : (decide (1 < g) && tie) = true
    · rw [if_pos hskip]
    · rw [if_neg hskip]
      unfold lookupParam
      rw [find?_map_of_pred_eq _ _ (fun p => by
        by_cases hp : (p.name == entry.1) = true
        · simp [hp]
        · simp [hp]) cc.params]
      cases hf : cc.params.find? (fun p => p.name == x) with
      | none => rfl
      | some p =>
        have hpx : p.name = x := by
          have := List.find?_some hf
          simpa using this
        have : ¬(p.name == entry.1) = true := by
          rw [hpx]
          simp
          exact fun hcontra => hx hcontra.symm
        simp only [Option.map_some']
        rw [if_neg this]
  · rw [if_neg hany]

theorem applyLimitEntry_lookupParam_eq (g : Nat) (tie : Bool) (cc : Comp)
    (entry : String × List ℚ) :
    lookupParam (applyLimitEntry g tie cc entry) entry.1 =
      match lookupParam cc entry.1 with
      | none => none
      | some p => some (if decide (1 < g) && tie then p
          else { p with values := overwriteValues p.values entry.2 }) := by
  unfold applyLimitEntry
  by_cases hany : (cc.params.any fun p => p.name == entry.1) = true
  · rw [if_pos hany]
    by_cases hskip : (decide (1 < g) && tie) = true
    · rw [if_pos hskip]
      cases hf : lookupParam cc entry.1 with
      | none => rfl
      | some p =>
        simp only [hskip, if_true]
    · rw [if_neg hskip]
      unfold lookupParam
      rw [find?_map_of_pred_eq _ _ (fun p => by
        by_cases hp : (p.name == entry.1) = true
        · simp [hp]
        · simp [hp]) cc.params]
      cases hf : cc.params.find? (fun p => p.name == entry.1) with
      | none => rfl
      | some p =>
        have hp1 : (p.name == entry.1) = true := by
          have := List.find?_some hf
          simpa using this
        simp only [Option.map_some']
        rw [if_pos hp1, if_neg hskip]
  · rw [if_neg hany]
    have hf : lookupParam cc entry.1 = none := by
      unfold lookupParam
      refine List.find?_eq_none.mpr ?_
      intro p hp
      by_cases hcontra : (p.name == entry.1) = true
      · exact absurd (List.any_eq_true.mpr ⟨p, hp, hcontra⟩) hany
      · simpa using hcontra
    rw [hf]

theorem confFold_lookupParam_untouched (g : Nat) (tie : Bool) :
    ∀ (conf : List (String × List ℚ)) (c : Comp) (x : String),
    (∀ e ∈ conf, e.1 ≠ x) →
    lookupParam (conf.foldl (applyLimitEntry g tie) c) x = lookupParam c x := by
  intro conf
  induction conf with
  | nil => intro c x _; rfl
  | cons e0 rest ih =>
    intro c x hne
    rw [List.foldl_cons,
      ih _ x (fun e he => hne e (List.mem_cons_of_mem _ he)),
      applyLimitEntry_lookupParam_ne g tie c e0 x
        (hne e0 (List.mem_cons_self _ _))]

theorem confFold_lookupParam (g : Nat) (tie : Bool) :
    ∀ (conf : List (String × List ℚ)) (c : Comp) (n : String),
    (conf.map Prod.fst).Nodup →
    lookupParam (conf.foldl (applyLimitEntry g tie) c) n =
      match conf.find? (fun e => e.1 == n) with
      | some e => (lookupParam c n).map (fun p =>
          if decide (1 < g) && tie then p
          else { p with values := overwriteValues p.values e.2 })
      | none => lookupParam c n := by
  intro conf
  induction conf with
  | nil => intro c n _; rfl
  | cons e0 rest ih =>
    intro c n hnd
    rw [List.foldl_cons]
    by_cases he0 : (e0.1 == n) = true
    · have he0' : e0.1 = n := by simpa using he0
      have hfind : List.find? (fun e => e.1 == n) (e0 :: rest) = some e0 :=
        List.find?_cons_of_pos _ he0
      rw [hfind]
      have hrest : ∀ e ∈ rest, e.1 ≠ n := by
        intro e he hcontra
        rw [List.map_cons, List.nodup_cons] at hnd
        exact hnd.1 (he0' ▸ hcontra ▸ List.mem_map.mpr ⟨e, he, rfl⟩)
      rw [confFold_lookupParam_untouched g tie rest _ n hrest]
      have := applyLimitEntry_lookupParam_eq g tie c e0
      rw [he0'] at this
      rw [this]
      cases lookupParam c n with
      | none => rfl
      | some p => rfl
    · have hfind : List.find? (fun e => e.1 == n) (e0 :: rest) =
          List.find? (fun e => e.1 == n) rest :=
        List.find?_cons_of_neg _ (by simpa using he0)
      rw [hfind]
      have hnd2 : (rest.map Prod.fst).Nodup := by
        rw [List.map_cons, List.nodup_cons] at hnd
        exact hnd.2
      rw [ih _ n hnd2,
        applyLimitEntry_lookupParam_ne g tie c e0 n
          (fun hcontra => (by simpa using he0 : e0.1 ≠ n) hcontra)]

theorem setLimitsComponent_lookupParam (conf : List (String × List ℚ))
    (g : Nat) (tie : Bool) (c : Comp) (n : String)
    (hnd : (conf.map Prod.fst).Nodup) :
    lookupParam (setLimitsComponent conf g tie c) n =
      (if tie then id else Option.map (fun p => { p with link := "" }))
        (match conf.find? (fun e => e.1 == n) with
         | some e => (lookupParam c n).map (fun p =>
             if decide (1 < g) && tie then p
             else { p with values := overwriteValues p.values e.2 })
         | none => lookupParam c n) := by
  unfold setLimitsComponent
  by_cases htie : tie = true
  · rw [htie, if_pos rfl, if_pos rfl]
    rw [confFold_lookupParam g true conf c n hnd]
    rfl
  · have htie' : tie = false := by simpa using htie
    rw [htie', if_neg (by simp), if_neg (by simp)]
    unfold lookupParam
    rw [find?_map_of_pred_eq (fun p => { p with link := "" }) _
      (fun p => by simp) (conf.foldl (applyLimitEntry g false) c).params]
    rw [show (List.find? (fun p => p.name == n)
        (conf.foldl (applyLimitEntry g false) c).params) =
      lookupParam (conf.foldl (applyLimitEntry g false) c) n from rfl]
    rw [confFold_lookupParam g false conf c n hnd]
    rfl

/-- With `tie_data_groups` and a data group beyond 1, the component is
left completely unchanged. -/
theorem setLimitsComponent_skip (conf : List (String × List ℚ)) (g : Nat)
    (c : Comp) (hg : 1 < g) :
    setLimitsComponent conf g true c = c := by
  unfold setLimitsComponent
  rw [if_pos rfl]
  have hstep : ∀ (cc : Comp) (e : String × List ℚ),
      applyLimitEntry g true cc e = cc := by
    intro cc e
    unfold applyLimitEntry
    by_cases hany : (cc.params.any fun p => p.name == e.1) = true
    · rw [if_pos hany, if_pos (by simp [hg])]
    · rw [if_neg hany]
  induction conf with
  | nil => rfl
  | cons e0 rest ih =>
    rw [List.foldl_cons, hstep c e0]
    exact ih

theorem setLimits_foldl_untouched (conf : List (String × List ℚ))
    (tie : Bool) :
    ∀ (l : List Nat) (acc : Nat → List Comp) (g : Nat), g ∉ l →
    (l.foldl (limitsGroupStep conf tie) acc) g = acc g := by
  intro l
  induction l with
  | nil => intro acc g _; rfl
  | cons g0 rest ih =>
    intro acc g hg
    rw [List.foldl_cons, ih _ g (fun h => hg (List.mem_cons_of_mem _ h))]
    unfold limitsGroupStep updateGroups
    rw [if_neg (fun h => hg (by rw [h]; exact List.mem_cons_self _ _))]

theorem setParameterLimits_apply (conf : List (String × List ℚ))
    (tie : Bool) :
    ∀ (groups : List Nat) (models : Nat → List Comp) (g : Nat),
    groups.Nodup → g ∈ groups →
    setParameterLimits conf groups tie models g =
      (models g).map (setLimitsComponent conf g tie) := by
  intro groups
  induction groups with
  | nil => intro models g _ hg; cases hg
  | cons g0 rest ih =>
    intro models g hnd hg
    rw [List.nodup_cons] at hnd
    unfold setParameterLimits at *
    rw [List.foldl_cons]
    rcases List.mem_cons.mp hg with hgg | hgmem
    · subst hgg
      rw [setLimits_foldl_untouched conf tie rest _ g hnd.1]
      unfold limitsGroupStep updateGroups
      rw [if_pos rfl]
    · rw [ih _ g hnd.2 hgmem]
      have : (limitsGroupStep conf tie models g0) g = models g := by
        unfold limitsGroupStep updateGroups
        rw [if_neg (fun h => hnd.1 (by rw [← h]; exact hgmem))]
      rw [this]

/-- C5: with `tie_data_groups` true, limits are applied only on data
group 1 — every other instrument's model is completely unchanged (left
tied, no limits set); with it false, every matching parameter of every
group and component is unlinked and gets its configured limit tuple. -/
theorem C5_parameter_limits (conf : List (String × List ℚ))
    (groups : List Nat) (tie : Bool) (models : Nat → List Comp)
    (hgnd : groups.Nodup) (hcnd : (conf.map Prod.fst).Nodup) :
    (tie = true → ∀ g ∈ groups, 1 < g →
      setParameterLimits conf groups tie models g = models g) ∧
    (tie = true → ∀ g ∈ groups, ¬1 < g →
      ∀ (i : Nat) (c : Comp), (models g)[i]? = some c →
      ∃ c2, (setParameterLimits conf groups tie models g)[i]? = some c2 ∧
        (∀ n lims p, (n, lims) ∈ conf → lookupParam c n = some p →
          lookupParam c2 n =
            some { p with values := overwriteValues p.values lims }) ∧
        (∀ n p, conf.find? (fun e => e.1 == n) = none →
          lookupParam c n = some p → lookupParam c2 n = some p)) ∧
    (tie = false → ∀ g ∈ groups,
      ∀ (i : Nat) (c : Comp), (models g)[i]? = some c →
      ∃ c2, (setParameterLimits conf groups tie models g)[i]? = some c2 ∧
        (∀ n lims p, (n, lims) ∈ conf → lookupParam c n = some p →
          lookupParam c2 n = some { p with
            values := overwriteValues p.values lims, link := "" }) ∧
        (∀ n p, conf.find? (fun e => e.1 == n) = none →
          lookupParam c n = some p →
          lookupParam c2 n = some { p with link := "" })) := by
  refine ⟨?_, ?_, ?_⟩
  · intro htie g hgmem hg
    subst htie
    rw [setParameterLimits_apply conf true groups models g hgnd hgmem]
    calc (models g).map (setLimitsComponent conf g true)
        = (models g).map id :=
          List.map_congr_left (fun c _ => setLimitsComponent_skip conf g c hg)
    _ = models g := List.map_id _
  · intro htie g hgmem hg i c hic
    subst htie
    rw [setParameterLimits_apply conf true groups models g hgnd hgmem]
    refine ⟨setLimitsComponent conf g true c, ?_, ?_, ?_⟩
    · rw [List.getElem?_map, hic, Option.map_some']
    · intro n lims p hmem hp
      rw [setLimitsComponent_lookupParam conf g true c n hcnd]
      rw [find?_eq_of_nodup_keys conf hcnd n lims hmem, if_pos rfl]
      simp only [id_eq]
      rw [hp, Option.map_some']
      have hcond : (decide (1 < g) && true) = false := by simp [hg]
      rw [hcond]
      simp only [Bool.false_eq_true, if_false]
    · intro n p hnone hp
      rw [setLimitsComponent_lookupParam conf g true c n hcnd, hnone, if_pos rfl]
      simp only [id_eq]
      exact hp
  · intro htie g hgmem i c hic
    subst htie
    rw [setParameterLimits_apply conf false groups models g hgnd hgmem]
    refine ⟨setLimitsComponent conf g false c, ?_, ?_, ?_⟩
    · rw [List.getElem?_map, hic, Option.map_some']
    · intro n lims p hmem hp
      rw [setLimitsComponent_lookupParam conf g false c n hcnd]
      rw [find?_eq_of_nodup_keys conf hcnd n lims hmem, if_neg (by simp), hp]
      simp
    · intro n p hnone hp
      rw [setLimitsComponent_lookupParam conf g false c n hcnd, hnone,
        if_neg (by simp), hp]
      simp

/-- Witness for C5: one configured limit on `kT`, untied groups. -/
theorem C5_witness :
    ∃ c2, (setParameterLimits [("kT", [2, 1, 0, 0, 8, 8])] [1, 2] false
        (fun _ => [Comp.mk "vapec"
          [ParamRec.mk "kT" [6, 1, 0, 0, 9, 9] [] "= m:1" false]]) 2)[0]? =
      some c2 ∧
    lookupParam c2 "kT" =
      some { ParamRec.mk "kT" [6, 1, 0, 0, 9, 9] [] "= m:1" false with
        values := overwriteValues [6, 1, 0, 0, 9, 9] [2, 1, 0, 0, 8, 8],
        link := "" } := by
  obtain ⟨c2, h1, h2, _⟩ := (C5_parameter_limits [("kT", [2, 1, 0, 0, 8, 8])]
    [1, 2] false
    (fun _ => [Comp.mk "vapec"
      [ParamRec.mk "kT" [6, 1, 0, 0, 9, 9] [] "= m:1" false]])
    (by decide) (by decide)).2.2 rfl 2 (by decide) 0
    (Comp.mk "vapec" [ParamRec.mk "kT" [6, 1, 0, 0, 9, 9] [] "= m:1" false]) rfl
  exact ⟨c2, h1, h2 "kT" [2, 1, 0, 0, 8, 8]
    (ParamRec.mk "kT" [6, 1, 0, 0, 9, 9] [] "= m:1" false)
    (List.mem_singleton.mpr rfl) rfl⟩

/-! ## C6: pileup linking -/

theorem foldl_bind_none {α β : Type _} (f : β → α → Option α)
    (l : List β) :
    l.foldl (fun acc x => acc.bind (f x)) none = none := by
  induction l with
  | nil => rfl
  | cons x rest ih => simpa using ih

/-- A `setParamLink` at one (component, parameter) address leaves every
other address unchanged. -/
theorem setParamLink_lookup_ne (cn pn lv : String) (m m2 : List Comp)
    (hres : setParamLink cn pn lv m = some m2) (cx px : String)
    (hne : cn ≠ cx ∨ pn ≠ px) :
    lookupCompParam m2 cx px = lookupCompParam m cx px := by
  unfold setParamLink at hres
  rcases Option.bind_eq_some.mp hres with ⟨c, hc, hmap⟩
  rcases Option.map_eq_some'.mp hmap with ⟨p0, hp, hres2⟩
  subst hres2
  unfold lookupCompParam
  rw [lookupComp_map _ (fun c2 => by
    by_cases h : (c2.name == cn) = true
    · simp [h]
    · simp [h]) m cx]
  cases hcx : lookupComp m cx with
  | none => rfl
  | some c2 =>
    simp only [Option.map_some', Option.some_bind]
    have hc2x : c2.name = cx := by
      unfold lookupComp at hcx
      have := List.find?_some hcx
      simpa using this
    by_cases hc2n : (c2.name == cn) = true
    · have hcncx : cn = cx := (by simpa using hc2n : c2.name = cn) ▸ hc2x
      have hpx : pn ≠ px := hne.resolve_left (fun h => h hcncx)
      rw [if_pos hc2n]
      unfold lookupParam
      rw [find?_map_of_pred_eq _ _ (fun p => by
        by_cases h : (p.name == pn) = true
        · simp [h]
        · simp [h]) c2.params]
      cases hfp : c2.params.find? (fun p => p.name == px) with
      | none => rfl
      | some p2 =>
        have hp2 : p2.name = px := by
          have := List.find?_some hfp
          simpa using this
        simp only [Option.map_some']
        rw [if_neg (by
          rw [hp2]
          simp
          exact fun h => hpx h.symm)]
    · rw [if_neg hc2n]

/-- `setParamLink` sets the link of the addressed parameter. -/
theorem setParamLink_lookup_eq (cn pn lv : String) (m m2 : List Comp)
    (hres : setParamLink cn pn lv m = some m2) :
    ∃ q, lookupCompParam m2 cn pn = some q ∧ q.link = lv := by
  unfold setParamLink at hres
  rcases Option.bind_eq_some.mp hres with ⟨c, hc, hmap⟩
  rcases Option.map_eq_some'.mp hmap with ⟨p0, hp, hres2⟩
  subst hres2
  have hcn : (c.name == cn) = true := by
    unfold lookupComp at hc
    have := List.find?_some hc
    simpa using this
  have hp0 : (p0.name == pn) = true := by
    unfold lookupParam at hp
    have := List.find?_some hp
    simpa using this
  unfold lookupCompParam
  rw [lookupComp_map _ (fun c2 => by
    by_cases h : (c2.name == cn) = true
    · simp [h]
    · simp [h]) m cn, hc, Option.map_some', Option.some_bind,
    if_pos hcn]
  unfold lookupParam
  rw [find?_map_of_pred_eq _ _ (fun p => by
    by_cases h : (p.name == pn) = true
    · simp [h]
    · simp [h]) c.params]
  rw [show c.params.find? (fun p => p.name == pn) = some p0 from hp,
    Option.map_some', if_pos hp0]
  exact ⟨_, rfl, rfl⟩

/-- The parameter fold of `linkComponentParams` leaves other component
names (or other parameter names of the same component) unchanged. -/
theorem linkParamsFold_untouched (cn : String) (lv : String → String) :
    ∀ (ps : List ParamRec) (m s : List Comp),
    ps.foldl (fun acc p => acc.bind (setParamLink cn p.name (lv p.name)))
      (some m) = some s →
    ∀ (cx px : String), (cn ≠ cx ∨ ∀ p ∈ ps, p.name ≠ px) →
    lookupCompParam s cx px = lookupCompParam m cx px := by
  intro ps
  induction ps with
  | nil =>
    intro m s hres cx px _
    injection hres with hres
    rw [hres]
  | cons p0 rest ih =>
    intro m s hres cx px hne
    rw [List.foldl_cons, Option.some_bind] at hres
    cases hstep : setParamLink cn p0.name (lv p0.name) m with
    | none =>
      rw [hstep, foldl_bind_none] at hres
      cases hres
    | some m1 =>
      rw [hstep] at hres
      have hm1 : lookupCompParam m1 cx px = lookupCompParam m cx px := by
        refine setParamLink_lookup_ne cn p0.name (lv p0.name) m m1 hstep cx px ?_
        rcases hne with h | h
        · exact Or.inl h
        · exact Or.inr (h p0 (List.mem_cons_self _ _))
      rw [← hm1]
      refine ih m1 s hres cx px ?_
      rcases hne with h | h
      · exact Or.inl h
      · exact Or.inr (fun p hp => h p (List.mem_cons_of_mem _ hp))

/-- Every parameter processed by the fold of `linkComponentParams` ends
linked to its pileup counterpart. -/
theorem linkParamsFold_sets (cn : String) (lv : String → String) :
    ∀ (ps : List ParamRec) (m s : List Comp),
    ps.foldl (fun acc p => acc.bind (setParamLink cn p.name (lv p.name)))
      (some m) = some s →
    (ps.map ParamRec.name).Nodup →
    ∀ p ∈ ps, ∃ q, lookupCompParam s cn p.name = some q ∧
      q.link = lv p.name := by
  intro ps
  induction ps with
  | nil =>
    intro m s _ _ p hp
    cases hp
  | cons p0 rest ih =>
    intro m s hres hnd p hp
    rw [List.foldl_cons, Option.some_bind] at hres
    cases hstep : setParamLink cn p0.name (lv p0.name) m with
    | none =>
      rw [hstep, foldl_bind_none] at hres
      cases hres
    | some m1 =>
      rw [hstep] at hres
      rcases List.mem_cons.mp hp with hpp | hpmem
      · subst hpp
        obtain ⟨q, hq, hqlink⟩ :=
          setParamLink_lookup_eq cn p.name (lv p.name) m m1 hstep
        have hpres : lookupCompParam s cn p.name =
            lookupCompParam m1 cn p.name := by
          refine linkParamsFold_untouched cn lv rest m1 s hres cn p.name
            (Or.inr ?_)
          intro p2 hp2 hcontra
          rw [List.map_cons, List.nodup_cons] at hnd
          exact hnd.1 (hcontra ▸ List.mem_map.mpr ⟨p2, hp2, rfl⟩)
        exact ⟨q, hpres ▸ hq, hqlink⟩
      · refine ih m1 s hres ?_ p hpmem
        rw [List.map_cons, List.nodup_cons] at hnd
        exact hnd.2

/-- `linkComponentParams` leaves other component names unchanged. -/
theorem linkComponentParams_untouched (pname : String) (c : Comp)
    (m s : List Comp) (hres : linkComponentParams pname c m = some s)
    (cx px : String) (hne : c.name ≠ cx) :
    lookupCompParam s cx px = lookupCompParam m cx px := by
  unfold linkComponentParams at hres
  exact linkParamsFold_untouched c.name
    (fun pn => linkString pname c.name pn) c.params m s hres cx px (Or.inl hne)

/-- `linkComponentParams` links every parameter of the pileup component
into the same-named signal parameter. -/
theorem linkComponentParams_sets (pname : String) (c : Comp)
    (m s : List Comp) (hres : linkComponentParams pname c m = some s)
    (hnd : (c.params.map ParamRec.name).Nodup) :
    ∀ p ∈ c.params, ∃ q, lookupCompParam s c.name p.name = some q ∧
      q.link = linkString pname c.name p.name := by
  unfold linkComponentParams at hres
  exact linkParamsFold_sets c.name (fun pn => linkString pname c.name pn)
    c.params m s hres hnd

/-- The component fold of `linkSignalToPileup` leaves component names
not in the pileup model unchanged. -/
theorem linkCompsFold_untouched (pname : String) :
    ∀ (pm : List Comp) (m s : List Comp),
    pm.foldl (fun acc c => acc.bind (linkComponentParams pname c))
      (some m) = some s →
    ∀ (cx px : String), (∀ c ∈ pm, c.name ≠ cx) →
    lookupCompParam s cx px = lookupCompParam m cx px := by
  intro pm
  induction pm with
  | nil =>
    intro m s hres cx px _
    injection hres with hres
    rw [hres]
  | cons c0 rest ih =>
    intro m s hres cx px hne
    rw [List.foldl_cons, Option.some_bind] at hres
    cases hstep : linkComponentParams pname c0 m with
    | none =>
      rw [hstep, foldl_bind_none] at hres
      cases hres
    | some m1 =>
      rw [hstep] at hres
      rw [ih m1 s hres cx px (fun c hc => hne c (List.mem_cons_of_mem _ hc)),
        linkComponentParams_untouched pname c0 m m1 hstep cx px
          (hne c0 (List.mem_cons_self _ _))]

/-- The component fold of `linkSignalToPileup` links every pileup
parameter into the same-named signal component/parameter. -/
theorem linkCompsFold_sets (pname : String) :
    ∀ (pm signal s : List Comp),
    pm.foldl (fun acc c => acc.bind (linkComponentParams pname c))
      (some signal) = some s →
    (pm.map Comp.name).Nodup →
    (∀ c ∈ pm, (c.params.map ParamRec.name).Nodup) →
    ∀ c ∈ pm, ∀ p ∈ c.params,
    ∃ q, lookupCompParam s c.name p.name = some q ∧
      q.link = linkString pname c.name p.name := by
  intro pm
  induction pm with
  | nil =>
    intro signal s _ _ _ c hc
    cases hc
  | cons c0 rest ih =>
    intro signal s hres hnd hpnd c hc p hp
    rw [List.foldl_cons, Option.some_bind] at hres
    cases hstep : linkComponentParams pname c0 signal with
    | none =>
      rw [hstep, foldl_bind_none] at hres
      cases hres
    | some m1 =>
      rw [hstep] at hres
      rcases List.mem_cons.mp hc with hcc | hcmem
      · subst hcc
        obtain ⟨q, hq, hqlink⟩ := linkComponentParams_sets pname c signal m1
          hstep (hpnd c (List.mem_cons_self _ _)) p hp
        have hpres : lookupCompParam s c.name p.name =
            lookupCompParam m1 c.name p.name := by
          refine linkCompsFold_untouched pname rest m1 s hres c.name p.name ?_
          intro c2 hc2 hcontra
          rw [List.map_cons, List.nodup_cons] at hnd
          exact hnd.1 (hcontra ▸ List.mem_map.mpr ⟨c2, hc2, rfl⟩)
        exact ⟨q, hpres ▸ hq, hqlink⟩
      · refine ih m1 s hres ?_ ?_ c hcmem p hp
        · rw [List.map_cons, List.nodup_cons] at hnd
          exact hnd.2
        · exact fun c2 hc2 => hpnd c2 (List.mem_cons_of_mem _ hc2)

/-- C6 phase 1, one instrument. -/
theorem linkSignalToPileup_sets (pname : String) (pm signal s : List Comp)
    (hres : linkSignalToPileup pname pm signal = some s)
    (hnd : (pm.map Comp.name).Nodup)
    (hpnd : ∀ c ∈ pm, (c.params.map ParamRec.name).Nodup) :
    ∀ c ∈ pm, ∀ p ∈ c.params,
    ∃ q, lookupCompParam s c.name p.name = some q ∧
      q.link = linkString pname c.name p.name := by
  unfold linkSignalToPileup at hres
  exact linkCompsFold_sets pname pm signal s hres hnd hpnd

/-- One `zeroFreezeComponents` step preserves, and at its own name
establishes, the all-zero-frozen property. -/
theorem zeroFreeze_step_preserves (n0 cn : String) (m : List Comp)
    (c2 : Comp)
    (hc2 : lookupComp m cn = some c2)
    (hprops : ∀ p ∈ c2.params, p.values = sixZeros ∧ p.frozen = true) :
    ∃ c3, lookupComp (m.map (fun c =>
        if c.name == n0 then zeroFreezeComponent c else c)) cn = some c3 ∧
      ∀ p ∈ c3.params, p.values = sixZeros ∧ p.frozen = true := by
  rw [lookupComp_map _ (fun c => by
    by_cases h : (c.name == n0) = true
    · simp [h, zeroFreezeComponent]
    · simp [h]) m cn, hc2, Option.map_some']
  by_cases hn : (c2.name == n0) = true
  · rw [if_pos hn]
    refine ⟨_, rfl, ?_⟩
    intro p hp
    rcases List.mem_map.mp hp with ⟨p0, _, hp0⟩
    subst hp0
    exact ⟨rfl, rfl⟩
  · rw [if_neg hn]
    exact ⟨c2, rfl, hprops⟩

/-- After `zeroFreezeComponents`, every listed component name maps to a
component all of whose parameters are zeroed and frozen. -/
theorem zeroFreezeComponents_spec :
    ∀ (names : List String) (signal s : List Comp),
    zeroFreezeComponents names signal = some s →
    ∀ n ∈ names, ∃ c2, lookupComp s n = some c2 ∧
      ∀ p ∈ c2.params, p.values = sixZeros ∧ p.frozen = true := by
  have hpres : ∀ (names : List String) (m s : List Comp),
      names.foldl (fun acc n => acc.bind (fun mm =>
        if mm.any (fun c => c.name == n) then
          some (mm.map (fun c =>
            if c.name == n then zeroFreezeComponent c else c))
        else none)) (some m) = some s →
      ∀ cn c2, lookupComp m cn = some c2 →
        (∀ p ∈ c2.params, p.values = sixZeros ∧ p.frozen = true) →
        ∃ c3, lookupComp s cn = some c3 ∧
          ∀ p ∈ c3.params, p.values = sixZeros ∧ p.frozen = true := by
    intro names
    induction names with
    | nil =>
      intro m s hres cn c2 hc2 hprops
      injection hres with hres
      subst hres
      exact ⟨c2, hc2, hprops⟩
    | cons n0 rest ih =>
      intro m s hres cn c2 hc2 hprops
      rw [List.foldl_cons, Option.some_bind] at hres
      by_cases hany : (m.any fun c => c.name == n0) = true
      · rw [if_pos hany] at hres
        obtain ⟨c3, hc3, hprops3⟩ :=
          zeroFreeze_step_preserves n0 cn m c2 hc2 hprops
        exact ih _ s hres cn c3 hc3 hprops3
      · rw [if_neg hany, foldl_bind_none] at hres
        cases hres
  intro names
  induction names with
  | nil =>
    intro signal s _ n hn
    cases hn
  | cons n0 rest ih =>
    intro signal s hres n hn
    unfold zeroFreezeComponents at hres
    rw [List.foldl_cons, Option.some_bind] at hres
    by_cases hany : (signal.any fun c => c.name == n0) = true
    · rw [if_pos hany] at hres
      rcases List.mem_cons.mp hn with hnn | hnmem
      · subst hnn
        rcases List.any_eq_true.mp hany with ⟨c0, hc0mem, hc0⟩
        have hfind : ∃ cf, lookupComp signal n = some cf := by
          unfold lookupComp
          have : (signal.find? (fun c => c.name == n)).isSome = true := by
            rw [List.find?_isSome]
            exact ⟨c0, hc0mem, hc0⟩
          exact Option.isSome_iff_exists.mp this
        rcases hfind with ⟨cf, hcf⟩
        have hcfn : (cf.name == n) = true := by
          unfold lookupComp at hcf
          have := List.find?_some hcf
          simpa using this
        have hstart : ∃ c3, lookupComp (signal.map (fun c =>
            if c.name == n then zeroFreezeComponent c else c)) n = some c3 ∧
            ∀ p ∈ c3.params, p.values = sixZeros ∧ p.frozen = true := by
          rw [lookupComp_map _ (fun c => by
            by_cases h : (c.name == n) = true
            · simp [h, zeroFreezeComponent]
            · simp [h]) signal n, hcf, Option.map_some', if_pos hcfn]
          refine ⟨_, rfl, ?_⟩
          intro p hp
          rcases List.mem_map.mp hp with ⟨p0, _, hp0⟩
          subst hp0
          exact ⟨rfl, rfl⟩
        rcases hstart with ⟨c3, hc3, hprops3⟩
        exact hpres rest _ s hres n c3 hc3 hprops3
      · exact ih _ s (by
          unfold zeroFreezeComponents
          exact hres) n hnmem
    · rw [if_neg hany, foldl_bind_none] at hres
      cases hres

/-- `ref_model` only depends on the sequence of pileup models. -/
theorem lastPileupModel_eq_of_map_eq (xs ys : List Inst)
    (h : xs.map Inst.pileupModel = ys.map Inst.pileupModel) :
    lastPileupModel xs = lastPileupModel ys := by
  have hfold : ∀ zs : List Inst, lastPileupModel zs =
      (zs.map Inst.pileupModel).foldl
        (fun acc o => match o with | some pm => some pm | none => acc)
        none := by
    intro zs
    unfold lastPileupModel
    rw [List.foldl_map]
  rw [hfold, hfold, h]

theorem lastPileupModel_mem_aux :
    ∀ (l : List Inst) (acc : Option (List Comp)) (ref : List Comp),
    l.foldl (fun acc i =>
      match i.pileupModel with
      | some pm => some pm
      | none => acc) acc = some ref →
    (∃ inst ∈ l, inst.pileupModel = some ref) ∨ acc = some ref := by
  intro l
  induction l with
  | nil =>
    intro acc ref hres
    exact Or.inr hres
  | cons i0 rest ih =>
    intro acc ref hres
    rw [List.foldl_cons] at hres
    cases hpm : i0.pileupModel with
    | some pm =>
      simp only [hpm] at hres
      rcases ih _ ref hres with h | h
      · rcases h with ⟨inst, hmem, hinst⟩
        exact Or.inl ⟨inst, List.mem_cons_of_mem _ hmem, hinst⟩
      · injection h with h
        exact Or.inl ⟨i0, List.mem_cons_self _ _, by rw [hpm, h]⟩
    | none =>
      simp only [hpm] at hres
      rcases ih _ ref hres with h | h
      · rcases h with ⟨inst, hmem, hinst⟩
        exact Or.inl ⟨inst, List.mem_cons_of_mem _ hmem, hinst⟩
      · exact Or.inr h

/-- The reference pileup model is some registered instrument's pileup
model. -/
theorem lastPileupModel_mem (l : List Inst) (ref : List Comp)
    (h : lastPileupModel l = some ref) :
    ∃ inst ∈ l, inst.pileupModel = some ref := by
  unfold lastPileupModel at h
  rcases lastPileupModel_mem_aux l none ref h with h1 | h2
  · exact h1
  · cases h2

/-- Per-index description of phase 1 of `_set_pileup_links`. -/
theorem pileupPhase1_spec :
    ∀ (insts r : List Inst), pileupPhase1 insts = some r →
    r.map Inst.pileupModel = insts.map Inst.pileupModel ∧
    ∀ (i : Nat) (inst : Inst), insts[i]? = some inst →
      ∃ inst2, r[i]? = some inst2 ∧ inst2.name = inst.name ∧
        inst2.pileupModel = inst.pileupModel ∧
        (inst.pileupModel = none → inst2 = inst) ∧
        (∀ pm, inst.pileupModel = some pm →
          linkSignalToPileup (pileupModelName inst.name) pm
            inst.signalModel = some inst2.signalModel) := by
  intro insts
  induction insts with
  | nil =>
    intro r hres
    injection hres with hres
    subst hres
    exact ⟨rfl, fun i inst hi => by simp at hi⟩
  | cons inst0 rest ih =>
    intro r hres
    cases hpm : inst0.pileupModel with
    | some pm =>
      simp only [pileupPhase1, hpm] at hres
      rcases Option.bind_eq_some.mp hres with ⟨s, hlink, hmap⟩
      rcases Option.map_eq_some'.mp hmap with ⟨r', hr', hr2⟩
      subst hr2
      obtain ⟨ihmap, ihidx⟩ := ih r' hr'
      constructor
      · rw [List.map_cons, List.map_cons, ihmap]
        show some pm :: _ = inst0.pileupModel :: _
        rw [hpm]
      · intro i inst hi
        match i with
        | 0 =>
          rw [List.getElem?_cons_zero] at hi
          injection hi with hi
          subst hi
          refine ⟨⟨inst0.name, s, some pm⟩,
            List.getElem?_cons_zero, rfl, hpm.symm, ?_, ?_⟩
          · intro hcon
            rw [hpm] at hcon
            cases hcon
          · intro pm2 hpm2
            rw [hpm] at hpm2
            injection hpm2 with hpm2
            subst hpm2
            exact hlink
        | Nat.succ j =>
          rw [List.getElem?_cons_succ] at hi
          obtain ⟨inst2, h1, h2, h3, h4, h5⟩ := ihidx j inst hi
          exact ⟨inst2, by rw [List.getElem?_cons_succ]; exact h1,
            h2, h3, h4, h5⟩
    | none =>
      simp only [pileupPhase1, hpm] at hres
      rcases Option.map_eq_some'.mp hres with ⟨r', hr', hr2⟩
      subst hr2
      obtain ⟨ihmap, ihidx⟩ := ih r' hr'
      constructor
      · rw [List.map_cons, List.map_cons, ihmap]
      · intro i inst hi
        match i with
        | 0 =>
          rw [List.getElem?_cons_zero] at hi
          injection hi with hi
          subst hi
          refine ⟨inst0, List.getElem?_cons_zero, rfl, rfl, fun _ => rfl, ?_⟩
          intro pm2 hpm2
          rw [hpm] at hpm2
          cases hpm2
        | Nat.succ j =>
          rw [List.getElem?_cons_succ] at hi
          obtain ⟨inst2, h1, h2, h3, h4, h5⟩ := ihidx j inst hi
          exact ⟨inst2, by rw [List.getElem?_cons_succ]; exact h1,
            h2, h3, h4, h5⟩

/-- Per-index description of phase 2 of `_set_pileup_links`. -/
theorem pileupPhase2_spec (refNames : List String) :
    ∀ (insts r : List Inst), pileupPhase2 refNames insts = some r →
    ∀ (i : Nat) (inst : Inst), insts[i]? = some inst →
      ∃ inst2, r[i]? = some inst2 ∧
        (inst.pileupModel.isSome → inst2 = inst) ∧
        (inst.pileupModel = none →
          zeroFreezeComponents refNames inst.signalModel =
            some inst2.signalModel) := by
  intro insts
  induction insts with
  | nil =>
    intro r hres i inst hi
    simp at hi
  | cons inst0 rest ih =>
    intro r hres i inst hi
    cases hpm : inst0.pileupModel with
    | some pm =>
      simp only [pileupPhase2, hpm] at hres
      rcases Option.map_eq_some'.mp hres with ⟨r', hr', hr2⟩
      subst hr2
      match i with
      | 0 =>
        rw [List.getElem?_cons_zero] at hi
        injection hi with hi
        subst hi
        refine ⟨inst0, List.getElem?_cons_zero, fun _ => rfl, ?_⟩
        intro hcon
        rw [hpm] at hcon
        cases hcon
      | Nat.succ j =>
        rw [List.getElem?_cons_succ] at hi
        obtain ⟨inst2, h1, h2, h3⟩ := ih r' hr' j inst hi
        exact ⟨inst2, by rw [List.getElem?_cons_succ]; exact h1, h2, h3⟩
    | none =>
      simp only [pileupPhase2, hpm] at hres
      rcases Option.bind_eq_some.mp hres with ⟨s, hzero, hmap⟩
      rcases Option.map_eq_some'.mp hmap with ⟨r', hr', hr2⟩
      subst hr2
      match i with
      | 0 =>
        rw [List.getElem?_cons_zero] at hi
        injection hi with hi
        subst hi
        refine ⟨⟨inst0.name, s, none⟩,
          List.getElem?_cons_zero, ?_, fun _ => hzero⟩
        intro hcon
        rw [hpm] at hcon
        cases hcon
      | Nat.succ j =>
        rw [List.getElem?_cons_succ] at hi
        obtain ⟨inst2, h1, h2, h3⟩ := ih r' hr' j inst hi
        exact ⟨inst2, by rw [List.getElem?_cons_succ]; exact h1, h2, h3⟩

/-- C6: with a standing pileup expression, `_set_pileup_links` links
every (free) pileup parameter of every instrument that has a pileup
model to the same-named component/parameter of that instrument's signal
model, and for every instrument lacking a pileup model it zeroes
(`'0 0 0 0 0 0'`) and freezes every parameter of the signal components
named in the reference (last-iterated) instrument's pileup component
list. -/
theorem C6_pileup_links (insts res : List Inst)
    (hres : setPileupLinks insts = some res) :
    (∀ (i : Nat) (inst : Inst) (pm : List Comp),
      insts[i]? = some inst → inst.pileupModel = some pm →
      (pm.map Comp.name).Nodup →
      (∀ c ∈ pm, (c.params.map ParamRec.name).Nodup) →
      ∀ c ∈ pm, ∀ p ∈ c.params, p.link = "" → p.frozen = false →
      ∃ inst2 q, res[i]? = some inst2 ∧
        lookupCompParam inst2.signalModel c.name p.name = some q ∧
        q.link = linkString (pileupModelName inst.name) c.name p.name) ∧
    (∀ ref, lastPileupModel insts = some ref →
      (∃ instj ∈ insts, instj.pileupModel = some ref) ∧
      (∀ (i : Nat) (inst : Inst), insts[i]? = some inst →
        inst.pileupModel = none →
        ∀ cn ∈ ref.map Comp.name,
        ∃ inst2 c2, res[i]? = some inst2 ∧
          lookupComp inst2.signalModel cn = some c2 ∧
          ∀ p ∈ c2.params, p.values = sixZeros ∧ p.frozen = true)) := by
  unfold setPileupLinks at hres
  rcases Option.bind_eq_some.mp hres with ⟨insts1, h1, h2⟩
  obtain ⟨hmap1, hidx1⟩ := pileupPhase1_spec insts insts1 h1
  constructor
  · intro i inst pm hi hpm hnd hpnd c hc p hp _ _
    obtain ⟨inst2, hi2, hname2, hpm2, _, hlink2⟩ := hidx1 i inst hi
    have hlinked := hlink2 pm hpm
    obtain ⟨q, hq, hqlink⟩ := linkSignalToPileup_sets
      (pileupModelName inst.name) pm inst.signalModel inst2.signalModel
      hlinked hnd hpnd c hc p hp
    cases hlast : lastPileupModel insts1 with
    | some ref =>
      simp only [hlast] at h2
      obtain ⟨inst3, hi3, heq3, _⟩ :=
        pileupPhase2_spec (ref.map Comp.name) insts1 res h2 i inst2 hi2
      have hsome2 : inst2.pileupModel.isSome = true := by
        rw [hpm2, hpm]
        rfl
      have hinst32 : inst3 = inst2 := heq3 hsome2
      subst hinst32
      exact ⟨inst3, q, hi3, hq, hqlink⟩
    | none =>
      simp only [hlast] at h2
      by_cases hemp : insts1.isEmpty = true
      · have : insts1 = [] := by
          cases insts1 with
          | nil => rfl
          | cons a l => cases hemp
        subst this
        simp at hi2
      · rw [if_neg hemp] at h2
        cases h2
  · intro ref hlastinsts
    have hlast1 : lastPileupModel insts1 = some ref := by
      rw [lastPileupModel_eq_of_map_eq insts1 insts hmap1]
      exact hlastinsts
    simp only [hlast1] at h2
    refine ⟨lastPileupModel_mem insts ref hlastinsts, ?_⟩
    intro i inst hi hnone cn hcn
    obtain ⟨inst2, hi2, _, _, hunchanged, _⟩ := hidx1 i inst hi
    have hinst2 : inst2 = inst := hunchanged hnone
    subst hinst2
    obtain ⟨inst3, hi3, _, hzero⟩ :=
      pileupPhase2_spec (ref.map Comp.name) insts1 res h2 i inst2 hi2
    have hz := hzero hnone
    obtain ⟨c2, hc2, hprops⟩ := zeroFreezeComponents_spec (ref.map Comp.name)
      inst2.signalModel inst3.signalModel hz cn hcn
    exact ⟨inst3, c2, hi3, hc2, hprops⟩

/-- Witness for C6: instrument `a` has a pileup model, `b` does not. -/
theorem C6_witness :
    ∃ res, setPileupLinks
        [⟨"a", [Comp.mk "expmodgauss"
            [ParamRec.mk "norm" [2, 1, 0, 0, 9, 9] [] "" false]],
          some [Comp.mk "expmodgauss"
            [ParamRec.mk "norm" [1, 1, 0, 0, 9, 9] [] "" false]]⟩,
         ⟨"b", [Comp.mk "expmodgauss"
            [ParamRec.mk "norm" [2, 1, 0, 0, 9, 9] [] "" false]], none⟩] =
      some res ∧
    ∃ inst2 q, res[0]? = some inst2 ∧
      lookupCompParam inst2.signalModel "expmodgauss" "norm" = some q ∧
      q.link = linkString (pileupModelName "a") "expmodgauss" "norm" := by
  refine ⟨_, rfl, ?_⟩
  exact (C6_pileup_links
    [⟨"a", [Comp.mk "expmodgauss"
        [ParamRec.mk "norm" [2, 1, 0, 0, 9, 9] [] "" false]],
      some [Comp.mk "expmodgauss"
        [ParamRec.mk "norm" [1, 1, 0, 0, 9, 9] [] "" false]]⟩,
     ⟨"b", [Comp.mk "expmodgauss"
        [ParamRec.mk "norm" [2, 1, 0, 0, 9, 9] [] "" false]], none⟩]
    _ rfl).1 0
    ⟨"a", [Comp.mk "expmodgauss"
        [ParamRec.mk "norm" [2, 1, 0, 0, 9, 9] [] "" false]],
      some [Comp.mk "expmodgauss"
        [ParamRec.mk "norm" [1, 1, 0, 0, 9, 9] [] "" false]]⟩
    [Comp.mk "expmodgauss" [ParamRec.mk "norm" [1, 1, 0, 0, 9, 9] [] "" false]]
    rfl rfl (by decide) (by decide)
    (Comp.mk "expmodgauss" [ParamRec.mk "norm" [1, 1, 0, 0, 9, 9] [] "" false])
    (List.mem_singleton.mpr rfl)
    (ParamRec.mk "norm" [1, 1, 0, 0, 9, 9] [] "" false)
    (List.mem_singleton.mpr rfl) rfl rfl

end XI
